import Mathlib

/-!
# Dispatcher workspace core — shallow embedding

A shallow embedding in Lean of the store layer of the Dispatcher terminal
multiplexer (zustand stores `useTerminalStore`, `useLayoutStore`,
`useProjectStore`, the layout-tree utilities in `lib/layoutUtils.ts`, the
shell-integration stream processor in `lib/shellIntegration.ts` and the
OSC chunk-reassembly step of the terminal bridge), together with the
`App.tsx` composite handlers for closing panes and cycling tabs.

JavaScript objects used as string-keyed maps are embedded as ordered
association lists (`ORec`): property update keeps the entry position,
fresh keys are appended, and `Object.keys` returns keys in that order,
which matches JS semantics for non-integer-like keys.
-/

set_option linter.unusedVariables false

namespace Dispatcher

/-- Ordered string-keyed record mirroring a JavaScript object. -/
abbrev ORec (α : Type) := List (String × α)

namespace ORec

/-- JS property read `r[k]`: first entry with key `k`. -/
def lookup {α : Type} : ORec α → String → Option α
  | [], _ => none
  | (k', v) :: r, k => if k' = k then some v else lookup r k

/-- JS spread update `{ ...r, [k]: v }`: overwrite in place when the key is
present, append otherwise. -/
def insert {α : Type} : ORec α → String → α → ORec α
  | [], k, v => [(k, v)]
  | (k', v') :: r, k, v => if k' = k then (k, v) :: r else (k', v') :: insert r k v

/-- JS rest destructuring `const { [k]: _, ...rest } = r`. -/
def erase {α : Type} : ORec α → String → ORec α
  | [], _ => []
  | (k', v') :: r, k => if k' = k then erase r k else (k', v') :: erase r k

/-- `Object.keys r` in iteration order. -/
def keys {α : Type} (r : ORec α) : List String := r.map Prod.fst

@[simp] theorem lookup_nil {α : Type} (k : String) : lookup ([] : ORec α) k = none := rfl

theorem lookup_insert {α : Type} (r : ORec α) (k : String) (v : α) :
    lookup (insert r k v) k = some v := by
  induction r with
  | nil => simp [insert, lookup]
  | cons p r ih =>
    obtain ⟨k', v'⟩ := p
    by_cases h : k' = k
    · simp [insert, h, lookup]
    · simp [insert, h, lookup, ih]

theorem lookup_insert_ne {α : Type} (r : ORec α) (k k' : String) (v : α) (h : k' ≠ k) :
    lookup (insert r k v) k' = lookup r k' := by
  induction r with
  | nil => simp [insert, lookup, Ne.symm h]
  | cons p r ih =>
    obtain ⟨k₀, v₀⟩ := p
    by_cases h₀ : k₀ = k
    · subst h₀
      simp [insert, lookup, h, Ne.symm h]
    · by_cases h₁ : k₀ = k'
      · subst h₁
        simp [insert, lookup, h₀, h]
      · simp [insert, lookup, h₀, h₁, ih]

theorem insert_insert {α : Type} (r : ORec α) (k : String) (v w : α) :
    insert (insert r k v) k w = insert r k w := by
  induction r with
  | nil => simp [insert]
  | cons p r ih =>
    obtain ⟨k', v'⟩ := p
    by_cases h : k' = k
    · simp [insert, h]
    · simp [insert, h, ih]

theorem insert_lookup_self {α : Type} (r : ORec α) (k : String) (v : α)
    (h : lookup r k = some v) : insert r k v = r := by
  induction r with
  | nil => simp [lookup] at h
  | cons p r ih =>
    obtain ⟨k', v'⟩ := p
    by_cases hk : k' = k
    · subst hk
      simp [lookup] at h
      simp [insert, h]
    · simp [lookup, hk] at h
      simp [insert, hk, ih h]

theorem keys_insert_of_isSome {α : Type} (r : ORec α) (k : String) (v : α)
    (h : (lookup r k).isSome) : keys (insert r k v) = keys r := by
  induction r with
  | nil => simp [lookup] at h
  | cons p r ih =>
    obtain ⟨k', v'⟩ := p
    by_cases hk : k' = k
    · subst hk
      simp [insert, keys]
    · simp [lookup, hk] at h
      simp [insert, hk, keys] at ih ⊢
      exact ih h

theorem lookup_erase {α : Type} (r : ORec α) (k : String) :
    lookup (erase r k) k = none := by
  induction r with
  | nil => simp [erase]
  | cons p r ih =>
    obtain ⟨k', v'⟩ := p
    by_cases hk : k' = k
    · simp [erase, hk, ih]
    · simp [erase, hk, lookup, ih]

theorem lookup_erase_ne {α : Type} (r : ORec α) (k k' : String) (h : k' ≠ k) :
    lookup (erase r k) k' = lookup r k' := by
  induction r with
  | nil => simp [erase]
  | cons p r ih =>
    obtain ⟨k₀, v₀⟩ := p
    by_cases hk : k₀ = k
    · subst hk
      simp [erase, lookup, Ne.symm h, ih]
    · by_cases h₁ : k₀ = k'
      · subst h₁
        simp [erase, lookup, hk, h]
      · simp [erase, lookup, hk, h₁, ih]

theorem mem_of_lookup_eq_some {α : Type} (r : ORec α) (k : String) (v : α)
    (h : lookup r k = some v) : (k, v) ∈ r := by
  induction r with
  | nil => simp [lookup] at h
  | cons p r ih =>
    obtain ⟨k', v'⟩ := p
    by_cases hk : k' = k
    · subst hk
      simp [lookup] at h
      simp [h]
    · simp [lookup, hk] at h
      simp [ih h]

end ORec

/-! ## Terminal store (`src/stores/useTerminalStore.ts`) -/

/-- `TerminalStatus` from `src/types/terminal.ts`. -/
inductive TStatus
  | running
  | done
  | error
deriving DecidableEq, Repr

/-- `TerminalSession` from `src/types/terminal.ts`.  `exitCode = none` models
JS `null`, `cwd = none` models an absent property. -/
structure TerminalSession where
  id : String
  title : String
  notes : String
  status : TStatus
  exitCode : Option Int
  cwd : Option String
deriving DecidableEq, Repr

/-- The `useTerminalStore` state.  The module-level `terminalCounter` is
threaded through the state explicitly. -/
structure TerminalStore where
  sessions : ORec TerminalSession
  activeTerminalId : Option String
  terminalCounter : Nat
deriving DecidableEq, Repr

namespace TerminalStore

/-- `addSession(id, title?, cwd?)`: bump the counter, insert a fresh session
(status `done`, exitCode `null`, empty notes), make it active. -/
def addSession (st : TerminalStore) (id : String) (title : Option String)
    (cwd : Option String) : TerminalStore :=
  let n := st.terminalCounter + 1
  { sessions := st.sessions.insert id
      { id := id
        title := title.getD ("Terminal " ++ toString n)
        notes := ""
        status := .done
        exitCode := none
        cwd := cwd }
    activeTerminalId := some id
    terminalCounter := n }

/-- `removeSession(id)`: drop the session; if it was active, fall back to the
last remaining key in iteration order (`ids[ids.length - 1]`), else `null`. -/
def removeSession (st : TerminalStore) (id : String) : TerminalStore :=
  let rest := st.sessions.erase id
  let ids := rest.keys
  { st with
    sessions := rest
    activeTerminalId :=
      if st.activeTerminalId = some id then ids.getLast? else st.activeTerminalId }

/-- `setActiveTerminal(id | null)`. -/
def setActiveTerminal (st : TerminalStore) (id : Option String) : TerminalStore :=
  { st with activeTerminalId := id }

/-- `updateStatus(id, status, exitCode?)`: no-op when the session is missing;
otherwise overwrite `status` and set `exitCode` to the argument
(`exitCode ?? null`). -/
def updateStatus (st : TerminalStore) (id : String) (status : TStatus)
    (exitCode : Option Int) : TerminalStore :=
  match st.sessions.lookup id with
  | none => st
  | some s =>
    { st with sessions := st.sessions.insert id { s with status := status, exitCode := exitCode } }

/-- `updateTitle(id, title)`: no-op when the session is missing. -/
def updateTitle (st : TerminalStore) (id : String) (title : String) : TerminalStore :=
  match st.sessions.lookup id with
  | none => st
  | some s => { st with sessions := st.sessions.insert id { s with title := title } }

/-- `updateNotes(id, notes)`: no-op when the session is missing. -/
def updateNotes (st : TerminalStore) (id : String) (notes : String) : TerminalStore :=
  match st.sessions.lookup id with
  | none => st
  | some s => { st with sessions := st.sessions.insert id { s with notes := notes } }

end TerminalStore

/-- A small concrete terminal store used by witnesses. -/
def egSession (i : String) : TerminalSession :=
  { id := i, title := i, notes := "", status := .done, exitCode := none, cwd := none }

/-- Store with sessions `t1`, `t2` (in that insertion order), `t2` active. -/
def egStore : TerminalStore :=
  { sessions := [("t1", egSession "t1"), ("t2", egSession "t2")]
    activeTerminalId := some "t2"
    terminalCounter := 2 }

/-- C7: `removeSession(id)` deletes the session `id` and leaves all other
sessions untouched; if the removed id was active, the new active id is the
last key of the remaining sessions in iteration order (or `null` when none
remain), and otherwise the active id is unchanged. -/
theorem removeSession_spec (st : TerminalStore) (id : String) :
    ((st.removeSession id).sessions.lookup id = none) ∧
    (∀ j, j ≠ id → (st.removeSession id).sessions.lookup j = st.sessions.lookup j) ∧
    (st.activeTerminalId = some id →
      (st.removeSession id).activeTerminalId = ((st.sessions.erase id).keys).getLast?) ∧
    (st.activeTerminalId ≠ some id →
      (st.removeSession id).activeTerminalId = st.activeTerminalId) := by
  refine ⟨?_, ?_, ?_, ?_⟩
  · exact ORec.lookup_erase st.sessions id
  · intro j hj
    exact ORec.lookup_erase_ne st.sessions id j hj
  · intro h
    simp [TerminalStore.removeSession, h]
  · intro h
    simp [TerminalStore.removeSession, h]

/-- Witness for C7 on the concrete two-session store: removing the active
session `t2` deletes it and falls back to `t1`, the last remaining key. -/
theorem removeSession_spec_witness :
    (egStore.removeSession "t2").sessions.lookup "t2" = none ∧
    (egStore.removeSession "t2").activeTerminalId = some "t1" := by
  have h := removeSession_spec egStore "t2"
  refine ⟨h.1, ?_⟩
  have h3 := h.2.2.1 (by rfl)
  rw [h3]
  rfl

/-- C9: `updateStatus`, `updateTitle` and `updateNotes` on an id with no
session leave the whole store unchanged: no throw, no session created, no
change to `sessions` or `activeTerminalId`. -/
theorem update_missing_session_noop (st : TerminalStore) (id : String)
    (h : st.sessions.lookup id = none) :
    (∀ status ec, st.updateStatus id status ec = st) ∧
    (∀ t, st.updateTitle id t = st) ∧
    (∀ n, st.updateNotes id n = st) := by
  refine ⟨?_, ?_, ?_⟩
  · intro status ec
    simp [TerminalStore.updateStatus, h]
  · intro t
    simp [TerminalStore.updateTitle, h]
  · intro n
    simp [TerminalStore.updateNotes, h]

/-- Witness for C9: on the concrete store, updating a missing id `ghost`
changes nothing. -/
theorem update_missing_session_noop_witness :
    egStore.sessions.lookup "ghost" = none ∧
    egStore.updateStatus "ghost" .running none = egStore ∧
    egStore.updateTitle "ghost" "x" = egStore ∧
    egStore.updateNotes "ghost" "y" = egStore := by
  have h0 : egStore.sessions.lookup "ghost" = none := by decide
  have h := update_missing_session_noop egStore "ghost" h0
  exact ⟨h0, h.1 .running none, h.2.1 "x", h.2.2 "y"⟩

/-- C10: `addSession` on an id that already has a session does not fail:
it replaces the session in place with a fresh one (empty notes, status
`done`, exitCode `null`, auto/explicit title), bumps the title counter,
keeps the key set (no duplicate entry) and makes the id active. -/
theorem addSession_existing_replaces (st : TerminalStore) (id : String)
    (title cwd : Option String) (h : (st.sessions.lookup id).isSome) :
    ((st.addSession id title cwd).sessions.lookup id = some
      { id := id
        title := title.getD ("Terminal " ++ toString (st.terminalCounter + 1))
        notes := ""
        status := .done
        exitCode := none
        cwd := cwd }) ∧
    (st.addSession id title cwd).terminalCounter = st.terminalCounter + 1 ∧
    (st.addSession id title cwd).activeTerminalId = some id ∧
    (st.addSession id title cwd).sessions.keys = st.sessions.keys := by
  refine ⟨?_, rfl, rfl, ?_⟩
  · exact ORec.lookup_insert st.sessions id _
  · exact ORec.keys_insert_of_isSome st.sessions id _ h

/-- Witness for C10: re-adding existing id `t1` replaces it in place,
bumps the counter, activates `t1`, and the key list stays `[t1, t2]`. -/
theorem addSession_existing_replaces_witness :
    ((egStore.sessions.lookup "t1").isSome = true) ∧
    ((egStore.addSession "t1" none none).sessions.lookup "t1" = some
      { id := "t1", title := "Terminal 3", notes := "", status := .done
        exitCode := none, cwd := none }) ∧
    (egStore.addSession "t1" none none).sessions.keys = ["t1", "t2"] := by
  have h0 : (egStore.sessions.lookup "t1").isSome = true := by decide
  have h := addSession_existing_replaces egStore "t1" none none h0
  refine ⟨h0, ?_, ?_⟩
  · rw [h.1]
    rfl
  · rw [h.2.2.2]
    rfl

/-! ## Layout trees (`src/lib/layoutUtils.ts`, `src/types/layout.ts`)

Node ids (`generateNodeId`, a string built from `Date.now()` and a module
counter) are embedded as the successive values of a `Nat` counter threaded
through the operations; only their identity matters to the store logic.
Ratios (`number`) are embedded as `ℚ`: the code only stores and compares
them. -/

inductive Dir
  | horizontal
  | vertical
deriving DecidableEq, Repr

/-- `LayoutNode`: `leaf` is the `type: "terminal"` variant, `split` the
`type: "split"` variant. -/
inductive LayoutNode
  | leaf (id : Nat) (terminalId : String)
  | split (id : Nat) (direction : Dir) (ratio : ℚ) (first second : LayoutNode)
deriving DecidableEq, Repr

/-- `splitAtTerminal(root, targetTerminalId, newTerminalId, direction)`:
replace the leaf holding `target` by a 50/50 split of it and a fresh leaf
for `newId`.  Returns the new tree and the node-id counter after the two
`generateNodeId()` calls (new leaf first, then the split node). -/
def splitAtTerminal : LayoutNode → String → String → Dir → Nat → LayoutNode × Nat
  | .leaf id tid, target, newId, d, c =>
    if tid = target then
      (.split (c + 2) d (1/2 : ℚ) (.leaf id tid) (.leaf (c + 1) newId), c + 2)
    else (.leaf id tid, c)
  | .split id dir r f s, target, newId, d, c =>
    let fp := splitAtTerminal f target newId d c
    let sp := splitAtTerminal s target newId d fp.2
    (.split id dir r fp.1 sp.1, sp.2)

/-- `removeFromLayout(root, targetTerminalId)`: delete the leaf, collapsing a
split whose only surviving child becomes the parent; `none` when the whole
tree vanishes. -/
def removeFromLayout : LayoutNode → String → Option LayoutNode
  | .leaf id tid, target => if tid = target then none else some (.leaf id tid)
  | .split id d r f s, target =>
    match removeFromLayout f target, removeFromLayout s target with
    | none, none => none
    | none, some s' => some s'
    | some f', none => some f'
    | some f', some s' => some (.split id d r f' s')

/-- `updateRatio(root, splitId, newRatio)`: overwrite the ratio of the split
node with the given id; recurse otherwise. -/
def updateRatio : LayoutNode → Nat → ℚ → LayoutNode
  | .leaf id tid, _, _ => .leaf id tid
  | .split id d r f s, splitId, newRatio =>
    if id = splitId then .split id d newRatio f s
    else .split id d r (updateRatio f splitId newRatio) (updateRatio s splitId newRatio)

/-- `findTerminalIds(root)`: in-order (left-to-right) leaf terminal ids. -/
def findTerminalIds : LayoutNode → List String
  | .leaf _ tid => [tid]
  | .split _ _ _ f s => findTerminalIds f ++ findTerminalIds s

/-- Is this node a leaf holding exactly this terminal id? -/
def isLeafOf (l : LayoutNode) (tid : String) : Bool :=
  match l with
  | .leaf _ t => t = tid
  | _ => false

/-- `findSiblingTerminalId(root, targetTerminalId)`: nearest other leaf. -/
def findSiblingTerminalId : LayoutNode → String → Option String
  | .leaf _ _, _ => none
  | .split _ _ _ f s, target =>
    if isLeafOf f target then (findTerminalIds s).head?
    else if isLeafOf s target then (findTerminalIds f).getLast?
    else if target ∈ findTerminalIds f then findSiblingTerminalId f target
    else if target ∈ findTerminalIds s then findSiblingTerminalId s target
    else none

/-- `findLayoutKeyForTerminal(layouts, terminalId)`: the id itself when it is
a key, else the first key whose tree contains it. -/
def findLayoutKeyForTerminal (layouts : ORec LayoutNode) (tid : String) : Option String :=
  match layouts.lookup tid with
  | some _ => some tid
  | none => (layouts.find? (fun p => (findTerminalIds p.2).contains tid)).map Prod.fst

/-! ## Layout store (`useLayoutStore`, source file `part_006`) -/

/-- The `useLayoutStore` state, with the module-level node-id counter of
`layoutUtils.ts` threaded explicitly. -/
structure LayoutStore where
  layouts : ORec LayoutNode
  nodeCounter : Nat
deriving DecidableEq, Repr

namespace LayoutStore

/-- `initLayout(layoutId, terminalId)`. -/
def initLayout (st : LayoutStore) (layoutId terminalId : String) : LayoutStore :=
  { layouts := st.layouts.insert layoutId (.leaf (st.nodeCounter + 1) terminalId)
    nodeCounter := st.nodeCounter + 1 }

/-- `splitTerminal(layoutId, targetTerminalId, newTerminalId, direction)`:
no-op when the key is missing. -/
def splitTerminal (st : LayoutStore) (layoutId target newId : String) (d : Dir) : LayoutStore :=
  match st.layouts.lookup layoutId with
  | none => st
  | some layout =>
    let p := splitAtTerminal layout target newId d st.nodeCounter
    { layouts := st.layouts.insert layoutId p.1, nodeCounter := p.2 }

/-- `removeTerminal(layoutId, targetTerminalId)`: no-op when the key is
missing; deletes the map entry when the tree becomes empty. -/
def removeTerminal (st : LayoutStore) (layoutId target : String) : LayoutStore :=
  match st.layouts.lookup layoutId with
  | none => st
  | some layout =>
    match removeFromLayout layout target with
    | none => { st with layouts := st.layouts.erase layoutId }
    | some l' => { st with layouts := st.layouts.insert layoutId l' }

/-- `setRatio(layoutId, splitId, ratio)`: stores the ratio argument as given;
no-op when the key is missing. -/
def setRatio (st : LayoutStore) (layoutId : String) (splitId : Nat) (ratio : ℚ) : LayoutStore :=
  match st.layouts.lookup layoutId with
  | none => st
  | some layout =>
    { st with layouts := st.layouts.insert layoutId (updateRatio layout splitId ratio) }

/-- `removeLayout(layoutId)`. -/
def removeLayout (st : LayoutStore) (layoutId : String) : LayoutStore :=
  { st with layouts := st.layouts.erase layoutId }

end LayoutStore

/-- Removing the freshly split-in terminal undoes `splitAtTerminal` exactly
(the original subtrees are returned untouched, the new nodes are deleted and
the transient split collapses onto its first child). -/
theorem removeFromLayout_splitAtTerminal (root : LayoutNode) (t n : String) (d : Dir) (c : Nat)
    (h : n ∉ findTerminalIds root) :
    removeFromLayout (splitAtTerminal root t n d c).1 n = some root := by
  induction root generalizing c with
  | leaf id tid =>
    have htid : ¬ tid = n := by
      intro he
      exact h (by simp [findTerminalIds, he])
    by_cases ht : tid = t
    · subst ht
      simp [splitAtTerminal, removeFromLayout, htid]
    · simp [splitAtTerminal, ht, removeFromLayout, htid]
  | split id dir r f s ihf ihs =>
    have hf : n ∉ findTerminalIds f := fun hm => h (by simp [findTerminalIds, hm])
    have hs : n ∉ findTerminalIds s := fun hm => h (by simp [findTerminalIds, hm])
    simp [splitAtTerminal, removeFromLayout, ihf c hf, ihs _ hs]

/-- C6: for a key `k` present in the layout store and a fresh terminal id `n`
occurring in no layout, `splitTerminal(k, t, n, d)` followed by
`removeTerminal(k, n)` restores the layouts map exactly (all keys, all trees,
including node ids and ratios). -/
theorem splitTerminal_removeTerminal_roundtrip (st : LayoutStore) (k t n : String) (d : Dir)
    (hk : (st.layouts.lookup k).isSome)
    (hfresh : ∀ p ∈ st.layouts, n ∉ findTerminalIds p.2) :
    ((st.splitTerminal k t n d).removeTerminal k n).layouts = st.layouts := by
  obtain ⟨L, hL⟩ := Option.isSome_iff_exists.mp hk
  have hmem := ORec.mem_of_lookup_eq_some _ _ _ hL
  have hnL : n ∉ findTerminalIds L := hfresh _ hmem
  have hstep : (st.splitTerminal k t n d).layouts
      = st.layouts.insert k (splitAtTerminal L t n d st.nodeCounter).1 := by
    simp [LayoutStore.splitTerminal, hL]
  have hlook : (st.splitTerminal k t n d).layouts.lookup k
      = some (splitAtTerminal L t n d st.nodeCounter).1 := by
    rw [hstep]
    exact ORec.lookup_insert _ _ _
  have hrm := removeFromLayout_splitAtTerminal L t n d st.nodeCounter hnL
  have hlook2 : (st.layouts.insert k (splitAtTerminal L t n d st.nodeCounter).1).lookup k
      = some (splitAtTerminal L t n d st.nodeCounter).1 := ORec.lookup_insert _ _ _
  unfold LayoutStore.removeTerminal
  rw [hstep]
  simp only [hlook2, hrm]
  simp [ORec.insert_insert, ORec.insert_lookup_self _ _ _ hL]

/-- A single-leaf layout store used by witnesses. -/
def egLeafStore : LayoutStore :=
  { layouts := [("t1", .leaf 0 "t1")], nodeCounter := 0 }

/-- Witness for C6: splitting the sole leaf `t1` with fresh pane `s` and then
removing `s` restores the one-leaf layouts map. -/
theorem splitTerminal_removeTerminal_roundtrip_witness :
    ((egLeafStore.splitTerminal "t1" "t1" "s" .horizontal).removeTerminal "t1" "s").layouts
      = egLeafStore.layouts := by
  have h := splitTerminal_removeTerminal_roundtrip egLeafStore "t1" "t1" "s" .horizontal
    (by decide) (by decide)
  exact h

/-! ## C8: ratio clamping -/

/-- All split ratios occurring in a layout tree. -/
def ratiosOf : LayoutNode → List ℚ
  | .leaf _ _ => []
  | .split _ _ r f s => r :: (ratiosOf f ++ ratiosOf s)

/-- A layout store with one split of ratio 1/2 under key `t1`. -/
def egSplitStore : LayoutStore :=
  { layouts := [("t1", .split 1 .horizontal (1/2 : ℚ) (.leaf 0 "t1") (.leaf 2 "s"))]
    nodeCounter := 2 }

/-- C8 counterexample: `setRatio` stores its raw argument — passing 19/20
(= 0.95) stores 0.95, which lies outside [0.1, 0.9].  The store itself
applies no clamp. -/
theorem setRatio_unclamped_counterexample :
    ((egSplitStore.setRatio "t1" 1 (19/20)).layouts.lookup "t1").map ratiosOf
        = some [(19/20 : ℚ)] ∧
    ¬ ((19 : ℚ)/20 ≤ 9/10) := by
  constructor
  · rfl
  · norm_num

/-- The clamp applied by the split divider's mouse-move handler before it
calls `setRatio`: `Math.max(0.1, Math.min(0.9, ratio))`. -/
def clampRatio (r : ℚ) : ℚ := max (1/10) (min (9/10) r)

theorem clampRatio_mem (r : ℚ) : 1/10 ≤ clampRatio r ∧ clampRatio r ≤ 9/10 := by
  unfold clampRatio
  constructor
  · exact le_max_left _ _
  · rcases le_total (9/10 : ℚ) r with h | h
    · rw [min_eq_left h]
      rw [max_eq_right (by norm_num)]
    · rw [min_eq_right h]
      rcases le_total (1/10 : ℚ) r with h1 | h1
      · rw [max_eq_right h1]
        exact h
      · rw [max_eq_left h1]
        norm_num

/-- A layout-store operation as issued by the UI; `ratioOp` routes its raw
ratio through the divider clamp, as `SplitDivider.handleMouseMove` does. -/
inductive LayoutOp
  | initOp (layoutId terminalId : String)
  | splitOp (layoutId target newId : String) (d : Dir)
  | removeOp (layoutId target : String)
  | ratioOp (layoutId : String) (splitId : Nat) (raw : ℚ)
  | removeLayoutOp (layoutId : String)

/-- Apply one UI-issued operation to the layout store. -/
def applyOp (st : LayoutStore) : LayoutOp → LayoutStore
  | .initOp k t => st.initLayout k t
  | .splitOp k t n d => st.splitTerminal k t n d
  | .removeOp k t => st.removeTerminal k t
  | .ratioOp k i raw => st.setRatio k i (clampRatio raw)
  | .removeLayoutOp k => st.removeLayout k

/-- Every split ratio in every layout lies in [0.1, 0.9]. -/
def ratiosClamped (st : LayoutStore) : Prop :=
  ∀ p ∈ st.layouts, ∀ q ∈ ratiosOf p.2, 1/10 ≤ q ∧ q ≤ 9/10

theorem ratiosOf_updateRatio (L : LayoutNode) (i : Nat) (r q : ℚ)
    (h : q ∈ ratiosOf (updateRatio L i r)) : q = r ∨ q ∈ ratiosOf L := by
  induction L with
  | leaf id tid => simp [updateRatio, ratiosOf] at h
  | split id d r0 f s ihf ihs =>
    by_cases hid : id = i
    · simp [updateRatio, hid, ratiosOf] at h
      rcases h with h | h | h
      · exact Or.inl h
      · exact Or.inr (by simp [ratiosOf, h])
      · exact Or.inr (by simp [ratiosOf, h])
    · simp [updateRatio, hid, ratiosOf] at h
      rcases h with h | h | h
      · exact Or.inr (by simp [ratiosOf, h])
      · rcases ihf h with h' | h'
        · exact Or.inl h'
        · exact Or.inr (by simp [ratiosOf, h'])
      · rcases ihs h with h' | h'
        · exact Or.inl h'
        · exact Or.inr (by simp [ratiosOf, h'])

theorem ratiosOf_splitAtTerminal (L : LayoutNode) (t n : String) (d : Dir) (c : Nat) (q : ℚ)
    (h : q ∈ ratiosOf (splitAtTerminal L t n d c).1) : q = 1/2 ∨ q ∈ ratiosOf L := by
  induction L generalizing c with
  | leaf id tid =>
    by_cases ht : tid = t
    · simp [splitAtTerminal, ht, ratiosOf] at h
      left
      rw [h]
      norm_num
    · simp [splitAtTerminal, ht, ratiosOf] at h
  | split id dir r f s ihf ihs =>
    simp [splitAtTerminal, ratiosOf] at h
    rcases h with h | h | h
    · exact Or.inr (by simp [ratiosOf, h])
    · rcases ihf c h with h' | h'
      · exact Or.inl h'
      · exact Or.inr (by simp [ratiosOf, h'])
    · rcases ihs _ h with h' | h'
      · exact Or.inl h'
      · exact Or.inr (by simp [ratiosOf, h'])

theorem ratiosOf_removeFromLayout (L : LayoutNode) (t : String) :
    ∀ L', removeFromLayout L t = some L' → ∀ q ∈ ratiosOf L', q ∈ ratiosOf L := by
  induction L with
  | leaf id tid =>
    intro L' h q hq
    by_cases ht : tid = t
    · simp [removeFromLayout, ht] at h
    · simp [removeFromLayout, ht] at h
      subst h
      exact hq
  | split id d r f s ihf ihs =>
    intro L' h q hq
    simp only [removeFromLayout] at h
    rcases hf : removeFromLayout f t with _ | f'
    · rcases hs : removeFromLayout s t with _ | s'
      · rw [hf, hs] at h
        simp at h
      · rw [hf, hs] at h
        simp at h
        subst h
        simp [ratiosOf]
        exact Or.inr (Or.inr (ihs s' hs q hq))
    · rcases hs : removeFromLayout s t with _ | s'
      · rw [hf, hs] at h
        simp at h
        subst h
        simp [ratiosOf]
        exact Or.inr (Or.inl (ihf f' hf q hq))
      · rw [hf, hs] at h
        simp at h
        subst h
        simp [ratiosOf] at hq ⊢
        rcases hq with hq | hq | hq
        · exact Or.inl hq
        · exact Or.inr (Or.inl (ihf f' hf q hq))
        · exact Or.inr (Or.inr (ihs s' hs q hq))

theorem mem_insert_cases {α : Type} (r : ORec α) (k : String) (v : α) (p : String × α)
    (h : p ∈ ORec.insert r k v) : p = (k, v) ∨ p ∈ r := by
  induction r with
  | nil => simpa [ORec.insert] using h
  | cons p0 r ih =>
    obtain ⟨k₀, v₀⟩ := p0
    by_cases hk : k₀ = k
    · simp [ORec.insert, hk] at h
      rcases h with h | h
      · exact Or.inl h
      · exact Or.inr (by simp [h])
    · simp [ORec.insert, hk] at h
      rcases h with h | h
      · exact Or.inr (by simp [h])
      · rcases ih h with h' | h'
        · exact Or.inl h'
        · exact Or.inr (by simp [h'])

theorem mem_erase_sub {α : Type} (r : ORec α) (k : String) (p : String × α)
    (h : p ∈ ORec.erase r k) : p ∈ r := by
  induction r with
  | nil => simp [ORec.erase] at h
  | cons p0 r ih =>
    obtain ⟨k₀, v₀⟩ := p0
    simp only [ORec.erase] at h
    by_cases hk : k₀ = k
    · rw [if_pos hk] at h
      exact List.mem_cons_of_mem _ (ih h)
    · rw [if_neg hk] at h
      rcases List.mem_cons.mp h with h | h
      · rw [h]
        exact List.mem_cons_self _ _
      · exact List.mem_cons_of_mem _ (ih h)

theorem applyOp_preserves_clamped (st : LayoutStore) (op : LayoutOp)
    (h : ratiosClamped st) : ratiosClamped (applyOp st op) := by
  cases op with
  | initOp k t =>
    intro p hp q hq
    rcases mem_insert_cases _ _ _ _ hp with hp' | hp'
    · subst hp'
      simp [ratiosOf] at hq
    · exact h p hp' q hq
  | splitOp k t n d =>
    intro p hp q hq
    simp only [applyOp] at hp
    unfold LayoutStore.splitTerminal at hp
    rcases hL : st.layouts.lookup k with _ | L
    · rw [hL] at hp
      exact h p hp q hq
    · rw [hL] at hp
      simp at hp
      rcases mem_insert_cases _ _ _ _ hp with hp' | hp'
      · subst hp'
        simp at hq
        rcases ratiosOf_splitAtTerminal L t n d st.nodeCounter q hq with h' | h'
        · subst h'
          constructor <;> norm_num
        · exact h _ (ORec.mem_of_lookup_eq_some _ _ _ hL) q h'
      · exact h p hp' q hq
  | removeOp k t =>
    intro p hp q hq
    rcases hL : st.layouts.lookup k with _ | L
    · have he : applyOp st (.removeOp k t) = st := by
        simp [applyOp, LayoutStore.removeTerminal, hL]
      rw [he] at hp
      exact h p hp q hq
    · rcases hR : removeFromLayout L t with _ | L'
      · have he : applyOp st (.removeOp k t)
            = { st with layouts := st.layouts.erase k } := by
          simp [applyOp, LayoutStore.removeTerminal, hL, hR]
        rw [he] at hp
        exact h p (mem_erase_sub _ _ _ hp) q hq
      · have he : applyOp st (.removeOp k t)
            = { st with layouts := st.layouts.insert k L' } := by
          simp [applyOp, LayoutStore.removeTerminal, hL, hR]
        rw [he] at hp
        rcases mem_insert_cases _ _ _ _ hp with hp' | hp'
        · subst hp'
          simp at hq
          exact h _ (ORec.mem_of_lookup_eq_some _ _ _ hL) q
            (ratiosOf_removeFromLayout L t L' hR q hq)
        · exact h p hp' q hq
  | ratioOp k i raw =>
    intro p hp q hq
    simp only [applyOp] at hp
    unfold LayoutStore.setRatio at hp
    rcases hL : st.layouts.lookup k with _ | L
    · rw [hL] at hp
      exact h p hp q hq
    · rw [hL] at hp
      simp at hp
      rcases mem_insert_cases _ _ _ _ hp with hp' | hp'
      · subst hp'
        simp at hq
        rcases ratiosOf_updateRatio L i (clampRatio raw) q hq with h' | h'
        · subst h'
          exact clampRatio_mem raw
        · exact h _ (ORec.mem_of_lookup_eq_some _ _ _ hL) q h'
      · exact h p hp' q hq
  | removeLayoutOp k =>
    intro p hp q hq
    exact h p (mem_erase_sub _ _ _ hp) q hq

/-- C8 (amended): the store's `setRatio` stores its argument unchanged (see
the counterexample), but every ratio that reaches it through the UI passes
the divider clamp `max(0.1, min(0.9, ·))` first; under that discipline every
split ratio stays in [0.1, 0.9] after any sequence of store operations
(splits are created at ratio 1/2). -/
theorem clamped_ratio_invariant (st : LayoutStore) (h : ratiosClamped st)
    (ops : List LayoutOp) : ratiosClamped (ops.foldl applyOp st) := by
  induction ops generalizing st with
  | nil => exact h
  | cons op ops ih =>
    exact ih _ (applyOp_preserves_clamped st op h)

/-- Witness for C8 (amended): starting from the concrete split store, a
drag to raw ratio 5 (clamped to 0.9) keeps every ratio in [0.1, 0.9]. -/
theorem clamped_ratio_invariant_witness :
    ratiosClamped ([LayoutOp.ratioOp "t1" 1 (5 : ℚ)].foldl applyOp egSplitStore) := by
  have h := clamped_ratio_invariant egSplitStore
    (by
      intro p hp q hq
      simp [egSplitStore] at hp
      subst hp
      simp [ratiosOf] at hq
      subst hq
      constructor <;> norm_num)
    [LayoutOp.ratioOp "t1" 1 (5 : ℚ)]
  exact h

/-! ## Shell-integration stream processor
(`src/lib/shellIntegration.ts` and the OSC reassembly step of the terminal
bridge's `channel.onmessage`).

Strings are embedded as `List Char`.  `OSC_RE = /\x1b\]7770;([^\x07]*)\x07/g`
matches the 7-byte opener, a BEL-free payload and a closing BEL; JavaScript's
`replace` rewrites leftmost matches, invoking the callback in order. -/

/-- ESC (0x1b). -/
def escC : Char := Char.ofNat 27

/-- BEL (0x07). -/
def belC : Char := Char.ofNat 7

/-- The 7-byte OSC 7770 opener `ESC ] 7 7 7 0 ;`. -/
def oscPre : List Char := [escC, ']', '7', '7', '7', '0', ';']

/-- Split a byte list at its first BEL: `some (before, after)`. -/
def splitAtBel : List Char → Option (List Char × List Char)
  | [] => none
  | c :: cs =>
    if c = belC then some ([], cs)
    else (splitAtBel cs).map (fun p => (c :: p.1, p.2))

/-- Leftmost match of `OSC_RE` as `some (before, payload, after)`: the match
starts at the first position where the opener occurs with a BEL somewhere
after it, and the (greedy, BEL-free) payload runs to the first such BEL. -/
def findOscMatch : List Char → Option (List Char × List Char × List Char)
  | [] => none
  | c :: cs =>
    if oscPre <+: (c :: cs) then
      match splitAtBel ((c :: cs).drop 7) with
      | some p => some ([], p.1, p.2)
      | none => none
    else (findOscMatch cs).map (fun r => (c :: r.1, r.2.1, r.2.2))

theorem splitAtBel_length (l : List Char) :
    ∀ a b, splitAtBel l = some (a, b) → l.length = a.length + b.length + 1 := by
  induction l with
  | nil => intro a b h; simp [splitAtBel] at h
  | cons c cs ih =>
    intro a b h
    by_cases hc : c = belC
    · simp [splitAtBel, hc] at h
      obtain ⟨h1, h2⟩ := h
      subst h1
      subst h2
      simp
    · simp only [splitAtBel, if_neg hc, Option.map_eq_some'] at h
      obtain ⟨q, hq, hqe⟩ := h
      obtain ⟨q1, q2⟩ := q
      simp at hqe
      obtain ⟨h1, h2⟩ := hqe
      subst h1
      subst h2
      have hlen := ih _ _ hq
      simp only [List.length_cons] at hlen ⊢
      omega

theorem findOscMatch_length (l : List Char) :
    ∀ a p r, findOscMatch l = some (a, p, r) →
      l.length = a.length + p.length + r.length + 8 := by
  induction l with
  | nil => intro a p r h; simp [findOscMatch] at h
  | cons c cs ih =>
    intro a p r h
    by_cases hpre : oscPre <+: (c :: cs)
    · simp only [findOscMatch, if_pos hpre] at h
      rcases hb : splitAtBel ((c :: cs).drop 7) with _ | q
      · rw [hb] at h
        simp at h
      · obtain ⟨q1, q2⟩ := q
        rw [hb] at h
        simp at h
        obtain ⟨h1, h2, h3⟩ := h
        subst h1
        subst h2
        subst h3
        have hlen : ((c :: cs).drop 7).length = q1.length + q2.length + 1 :=
          splitAtBel_length _ _ _ hb
        have h7 : 7 ≤ (c :: cs).length := by
          have hle := hpre.length_le
          simpa [oscPre] using hle
        simp only [List.length_drop, List.length_cons, List.length_nil] at hlen h7 ⊢
        omega
    · simp only [findOscMatch, if_neg hpre, Option.map_eq_some'] at h
      obtain ⟨q, hq, hqe⟩ := h
      obtain ⟨q1, q2, q3⟩ := q
      simp at hqe
      obtain ⟨h1, h2, h3⟩ := hqe
      subst h1
      subst h2
      subst h3
      have hlen := ih _ _ _ hq
      simp only [List.length_cons] at hlen ⊢
      omega

/-- `stripOsc` with explicit fuel (one unit per rewritten match; each match
consumes at least 8 characters, so `s.length` fuel always suffices). -/
def stripOscAux : Nat → List Char → List Char × List (List Char)
  | 0, s => (s, [])
  | fuel + 1, s =>
    match findOscMatch s with
    | none => (s, [])
    | some (a, p, r) =>
      let q := stripOscAux fuel r
      (a ++ q.1, p :: q.2)

/-- `data.replace(OSC_RE, cb)`: the cleaned string together with the list of
matched payloads in match order. -/
def stripOsc (s : List Char) : List Char × List (List Char) :=
  stripOscAux s.length s

theorem stripOscAux_succ_none (fuel : Nat) (s : List Char) (h : findOscMatch s = none) :
    stripOscAux (fuel + 1) s = (s, []) := by
  simp [stripOscAux, h]

theorem stripOscAux_succ_some (fuel : Nat) (s a p r : List Char)
    (h : findOscMatch s = some (a, p, r)) :
    stripOscAux (fuel + 1) s = (a ++ (stripOscAux fuel r).1, p :: (stripOscAux fuel r).2) := by
  simp [stripOscAux, h]

theorem stripOscAux_fuel_inv (f₁ : Nat) :
    ∀ f₂ s, s.length ≤ f₁ → s.length ≤ f₂ → stripOscAux f₁ s = stripOscAux f₂ s := by
  induction f₁ using Nat.strong_induction_on with
  | _ f₁ ih =>
    intro f₂ s h1 h2
    rcases f₁ with _ | f₁
    · rcases f₂ with _ | f₂
      · rfl
      · have hs : s = [] := List.eq_nil_of_length_eq_zero (Nat.le_zero.mp h1)
        subst hs
        rw [stripOscAux_succ_none f₂ [] (by simp [findOscMatch])]
        rfl
    · rcases f₂ with _ | f₂
      · have hs : s = [] := List.eq_nil_of_length_eq_zero (Nat.le_zero.mp h2)
        subst hs
        rw [stripOscAux_succ_none f₁ [] (by simp [findOscMatch])]
        rfl
      · rcases hm : findOscMatch s with _ | q
        · rw [stripOscAux_succ_none f₁ s hm, stripOscAux_succ_none f₂ s hm]
        · obtain ⟨a, p, r⟩ := q
          have hlen := findOscMatch_length s a p r hm
          have hr1 : r.length ≤ f₁ := by omega
          have hr2 : r.length ≤ f₂ := by omega
          rw [stripOscAux_succ_some f₁ s a p r hm, stripOscAux_succ_some f₂ s a p r hm,
            ih f₁ (Nat.lt_succ_self _) f₂ r hr1 hr2]

/-- `stripOsc` on a string with no match. -/
theorem stripOsc_of_none (s : List Char) (h : findOscMatch s = none) :
    stripOsc s = (s, []) := by
  unfold stripOsc
  rcases hl : s.length with _ | n
  · have hs : s = [] := List.eq_nil_of_length_eq_zero hl
    subst hs
    rfl
  · exact stripOscAux_succ_none n s h

/-- `stripOsc` peels one leftmost match. -/
theorem stripOsc_of_some (s a p r : List Char) (h : findOscMatch s = some (a, p, r)) :
    stripOsc s = (a ++ (stripOsc r).1, p :: (stripOsc r).2) := by
  have hlen := findOscMatch_length s a p r h
  unfold stripOsc
  rcases hl : s.length with _ | n
  · omega
  · rw [stripOscAux_succ_some n s a p r h,
      stripOscAux_fuel_inv n r.length r (by omega) (Nat.le_refl _)]

/-- ASCII whitespace skipped by `parseInt`. -/
def isWsChar (c : Char) : Bool := c == ' ' || c == '\t' || c == '\n' || c == '\r'

/-- ASCII decimal digit. -/
def isDigitChar (c : Char) : Bool := '0' ≤ c && c ≤ '9'

/-- Value of a run of decimal digits. -/
def digitsVal (ds : List Char) : Nat :=
  ds.foldl (fun a c => 10 * a + (c.toNat - 48)) 0

/-- `parseInt(s, 10)`: skip whitespace, optional sign, a run of decimal
digits (trailing characters ignored); `none` models `NaN` (no digits). -/
def jsParseInt (s : List Char) : Option Int :=
  let s1 := s.dropWhile isWsChar
  let signed : Int × List Char :=
    match s1 with
    | [] => (1, [])
    | c :: rest => if c = '-' then (-1, rest) else if c = '+' then (1, rest) else (1, c :: rest)
  let ds := signed.2.takeWhile isDigitChar
  if ds.isEmpty then none else some (signed.1 * (digitsVal ds : Int))

theorem jsParseInt_digits (ds : List Char) (hne : ds ≠ [])
    (hd : ∀ c ∈ ds, c ∈ "0123456789".toList) :
    jsParseInt ds = some (digitsVal ds) := by
  obtain ⟨c, ds', rfl⟩ := List.exists_cons_of_ne_nil hne
  have hc : c ∈ "0123456789".toList := hd c (by simp)
  have hcw : isWsChar c = false := by
    simp at hc
    rcases hc with h | h | h | h | h | h | h | h | h | h <;> subst h <;> decide
  have hcm : ¬ c = '-' ∧ ¬ c = '+' := by
    simp at hc
    rcases hc with h | h | h | h | h | h | h | h | h | h <;> subst h <;> exact ⟨by decide, by decide⟩
  have hdw : (c :: ds').dropWhile isWsChar = c :: ds' := by
    simp [List.dropWhile, hcw]
  have htk : (c :: ds').takeWhile isDigitChar = c :: ds' := by
    apply List.takeWhile_eq_self_iff.mpr
    intro x hx
    have := hd x hx
    simp at this
    rcases this with h | h | h | h | h | h | h | h | h | h <;> subst h <;> decide
  simp only [jsParseInt, hdw, if_neg hcm.1, if_neg hcm.2, htk]
  simp

/-- The replace-callback of `parseShellIntegration` for one matched payload:
`preexec` → status `running`; `precmd;<n>` → `done` when `n == 0` else
`error`, recording `exitCode = n`.  A `precmd;` payload whose tail has no
digits yields `NaN`: status `error`; the stored JS `NaN` exit code is
embedded as `none`.  Other payloads leave the store untouched. -/
def payloadAction (tid : String) (st : TerminalStore) (p : List Char) : TerminalStore :=
  if p = "preexec".toList then st.updateStatus tid .running none
  else if "precmd;".toList <+: p then
    match jsParseInt (p.drop 7) with
    | some n => st.updateStatus tid (if n = 0 then .done else .error) (some n)
    | none => st.updateStatus tid .error none
  else st

/-- `parseShellIntegration(terminalId, data)`: strip every complete OSC 7770
sequence, applying the status side effects in match order. -/
def parseShellIntegration (tid : String) (st : TerminalStore) (data : List Char) :
    List Char × TerminalStore :=
  let q := stripOsc data
  (q.1, q.2.foldl (payloadAction tid) st)

/-- Greatest index at which the opener occurs
(`data.lastIndexOf("\x1b]7770;")`), as an `Option`. -/
def lastPreIndex : List Char → Option Nat
  | [] => none
  | c :: cs =>
    match lastPreIndex cs with
    | some i => some (i + 1)
    | none => if oscPre <+: (c :: cs) then some 0 else none

/-- `data.indexOf("\x07", i) !== -1`: a BEL occurs at or after index `i`. -/
def hasBelFrom (b : List Char) (i : Nat) : Bool := decide (belC ∈ b.drop i)

/-- One `channel.onmessage` reassembly step: prepend the stored fragment,
then stash everything from the last opener onward when no BEL follows it,
emitting only the part before; otherwise emit the whole buffer.  Returns
`(emitted, new stored fragment)`.  (The source's `if (!data) return` merely
skips processing an empty emission, which strips to nothing anyway.) -/
def oscStep (pending chunk : List Char) : List Char × List Char :=
  let b := pending ++ chunk
  match lastPreIndex b with
  | none => (b, [])
  | some i => if hasBelFrom b i then (b, []) else (b.take i, b.drop i)

/-- Accumulated state of the per-session output pipeline. -/
structure ProcState where
  out : List Char
  store : TerminalStore
  pending : List Char
deriving Repr

/-- Process one chunk: reassembly step, then `parseShellIntegration` on the
emitted portion, appending the cleaned bytes to the output. -/
def processChunk (tid : String) (a : ProcState) (chunk : List Char) : ProcState :=
  let e := oscStep a.pending chunk
  let q := parseShellIntegration tid a.store e.1
  { out := a.out ++ q.1, store := q.2, pending := e.2 }

/-- Feed a list of chunks through the pipeline, starting from an empty
stored fragment. -/
def processChunks (tid : String) (st0 : TerminalStore) (chunks : List (List Char)) :
    ProcState :=
  chunks.foldl (processChunk tid) { out := [], store := st0, pending := [] }

/-- A one-session store for the stream-processor claims. -/
def egOscStore : TerminalStore :=
  { sessions := [("t", egSession "t")], activeTerminalId := some "t", terminalCounter := 1 }

/-- The two chunks of the C2 counterexample: a complete
`ESC ]7770;preexec BEL` cut inside its 7-byte opener. -/
def cexChunks : List (List Char) :=
  [[escC, ']', '7', '7'], ['7', '0', ';'] ++ "preexec".toList ++ [belC]]

/-! ## Well-formed OSC streams: token model

A well-formed stream interleaves plain text (never containing ESC, so no
opener can occur inside or across text) with complete OSC 7770 sequences
whose payloads contain neither ESC nor BEL.  A stream is a token list:
`tchar` = one text byte, `opener` = the atomic 7-byte opener, `pchar` = one
payload byte, `belTok` = the terminating BEL.  A chunk partition of the
token list is exactly a byte partition of the rendered stream whose chunk
boundaries never fall strictly inside a 7-byte opener. -/

inductive Tok
  | tchar (c : Char)
  | opener
  | pchar (c : Char)
  | belTok
deriving DecidableEq, Repr

/-- Bytes of one token. -/
def tokRender : Tok → List Char
  | .tchar c => [c]
  | .opener => oscPre
  | .pchar c => [c]
  | .belTok => [belC]

/-- Bytes of a token list. -/
def renderToks (ts : List Tok) : List Char := (ts.map tokRender).flatten

/-- Parsing mode: outside any sequence, or inside a payload with the
accumulated payload bytes. -/
inductive Mode
  | text
  | body (acc : List Char)
deriving DecidableEq, Repr

/-- One step of the well-formedness automaton: `none` = ill-formed. -/
def tokStep : Mode → Tok → Option Mode
  | .text, .tchar c => if c = escC then none else some .text
  | .text, .opener => some (.body [])
  | .body acc, .pchar c => if c = escC ∨ c = belC then none else some (.body (acc ++ [c]))
  | .body _, .belTok => some .text
  | _, _ => none

/-- Run the automaton over a token list. -/
def tokRun (m : Mode) (ts : List Tok) : Option Mode :=
  ts.foldl (fun om t => om.bind (fun m' => tokStep m' t)) (some m)

/-- The text bytes of a stream: what remains after removing every complete
OSC sequence. -/
def cleanToks (ts : List Tok) : List Char :=
  ts.filterMap (fun t => match t with | .tchar c => some c | _ => none)

/-- Completed payloads of a stream, in order, with an explicit accumulator
for the payload currently open. -/
def payloadsAcc : List Char → List Tok → List (List Char)
  | _, [] => []
  | acc, .tchar _ :: ts => payloadsAcc acc ts
  | _, .opener :: ts => payloadsAcc [] ts
  | acc, .pchar c :: ts => payloadsAcc (acc ++ [c]) ts
  | acc, .belTok :: ts => acc :: payloadsAcc [] ts

/-- Completed payloads of a stream, in order. -/
def payloadsOf (ts : List Tok) : List (List Char) := payloadsAcc [] ts

/-- The bytes the reassembly step holds back in a given mode. -/
def pendingOf : Mode → List Char
  | .text => []
  | .body acc => oscPre ++ acc

/-- The tokens whose render is the held-back fragment. -/
def modeToks : Mode → List Tok
  | .text => []
  | .body acc => .opener :: acc.map Tok.pchar

/-- Payload bytes accumulated in a mode are well-formed payload bytes. -/
def modeValid : Mode → Prop
  | .text => True
  | .body acc => ∀ c ∈ acc, ¬ c = escC ∧ ¬ c = belC

@[simp] theorem renderToks_nil : renderToks [] = [] := rfl

@[simp] theorem renderToks_cons (t : Tok) (ts : List Tok) :
    renderToks (t :: ts) = tokRender t ++ renderToks ts := by
  simp [renderToks]

@[simp] theorem renderToks_append (a b : List Tok) :
    renderToks (a ++ b) = renderToks a ++ renderToks b := by
  simp [renderToks]

@[simp] theorem cleanToks_nil : cleanToks [] = [] := rfl

@[simp] theorem cleanToks_append (a b : List Tok) :
    cleanToks (a ++ b) = cleanToks a ++ cleanToks b := by
  simp [cleanToks]

@[simp] theorem tokRun_nil (m : Mode) : tokRun m [] = some m := rfl

theorem tokRunAux_none (ts : List Tok) :
    List.foldl (fun om t => Option.bind om (fun m' => tokStep m' t)) none ts = none := by
  induction ts with
  | nil => rfl
  | cons t ts ih =>
    simp only [List.foldl_cons, Option.none_bind]
    exact ih

@[simp] theorem tokRun_cons (m : Mode) (t : Tok) (ts : List Tok) :
    tokRun m (t :: ts) = (tokStep m t).bind (fun m' => tokRun m' ts) := by
  simp only [tokRun, List.foldl_cons, Option.some_bind]
  rcases h : tokStep m t with _ | m'
  · simp only [Option.none_bind]
    exact tokRunAux_none ts
  · simp only [Option.some_bind]

theorem tokRun_append (m : Mode) (a b : List Tok) :
    tokRun m (a ++ b) = (tokRun m a).bind (fun m' => tokRun m' b) := by
  induction a generalizing m with
  | nil => simp
  | cons t a ih =>
    simp only [List.cons_append, tokRun_cons]
    rcases h : tokStep m t with _ | m'
    · simp
    · simp [ih m']

/-- Splitting a successful run over an append. -/
theorem tokRun_append_split (m m₂ : Mode) (a b : List Tok)
    (h : tokRun m (a ++ b) = some m₂) :
    ∃ m₁, tokRun m a = some m₁ ∧ tokRun m₁ b = some m₂ := by
  rw [tokRun_append] at h
  rcases ha : tokRun m a with _ | m₁
  · rw [ha] at h
    simp at h
  · rw [ha] at h
    simp at h
    exact ⟨m₁, rfl, h⟩

/-- Character classes of a valid run. -/
theorem tokRun_char_classes (ts : List Tok) :
    ∀ m m', tokRun m ts = some m' →
      (∀ c, Tok.tchar c ∈ ts → ¬ c = escC) ∧
      (∀ c, Tok.pchar c ∈ ts → ¬ c = escC ∧ ¬ c = belC) := by
  induction ts with
  | nil => intro m m' h; exact ⟨by simp, by simp⟩
  | cons t ts ih =>
    intro m m' h
    rw [tokRun_cons] at h
    rcases hs : tokStep m t with _ | m₁
    · rw [hs] at h
      simp at h
    · rw [hs] at h
      simp at h
      obtain ⟨h1, h2⟩ := ih m₁ m' h
      constructor
      · intro c hc
        rcases List.mem_cons.mp hc with hc | hc
        · subst hc
          cases m with
          | text =>
            simp only [tokStep] at hs
            by_cases he : c = escC
            · rw [if_pos he] at hs
              exact absurd hs (by simp)
            · exact he
          | body acc => simp [tokStep] at hs
        · exact h1 c hc
      · intro c hc
        rcases List.mem_cons.mp hc with hc | hc
        · subst hc
          cases m with
          | text => simp [tokStep] at hs
          | body acc =>
            simp only [tokStep] at hs
            by_cases he : c = escC ∨ c = belC
            · rw [if_pos he] at hs
              exact absurd hs (by simp)
            · exact not_or.mp he
        · exact h2 c hc

/-- A valid run preserves mode validity. -/
theorem tokRun_modeValid (ts : List Tok) :
    ∀ m m', tokRun m ts = some m' → modeValid m → modeValid m' := by
  induction ts with
  | nil => intro m m' h hv; simp at h; rwa [← h]
  | cons t ts ih =>
    intro m m' h hv
    rw [tokRun_cons] at h
    rcases hs : tokStep m t with _ | m₁
    · rw [hs] at h
      simp at h
    · rw [hs] at h
      simp at h
      refine ih m₁ m' h ?_
      cases m with
      | text =>
        cases t with
        | tchar c =>
          simp only [tokStep] at hs
          by_cases he : c = escC
          · rw [if_pos he] at hs; exact absurd hs (by simp)
          · rw [if_neg he] at hs
            simp at hs
            rw [← hs]
            trivial
        | opener =>
          simp [tokStep] at hs
          rw [← hs]
          intro c hc
          simp at hc
        | pchar c => simp [tokStep] at hs
        | belTok => simp [tokStep] at hs
      | body acc =>
        cases t with
        | tchar c => simp [tokStep] at hs
        | opener => simp [tokStep] at hs
        | pchar c =>
          simp only [tokStep] at hs
          by_cases he : c = escC ∨ c = belC
          · rw [if_pos he] at hs; exact absurd hs (by simp)
          · rw [if_neg he] at hs
            simp at hs
            rw [← hs]
            intro c' hc'
            rcases List.mem_append.mp hc' with hc' | hc'
            · exact hv c' hc'
            · simp at hc'
              subst hc'
              exact not_or.mp he
        | belTok =>
          simp [tokStep] at hs
          rw [← hs]
          trivial

/-- Running the automaton from a body mode over rendered payload tokens. -/
theorem tokRun_body_pchars (pp : List Char) :
    ∀ acc₀, (∀ c ∈ pp, ¬ c = escC ∧ ¬ c = belC) →
      tokRun (.body acc₀) (pp.map Tok.pchar) = some (.body (acc₀ ++ pp)) := by
  induction pp with
  | nil =>
    intro acc₀ _
    simp [tokRun]
  | cons c pp ih =>
    intro acc₀ hp
    have hc := hp c (by simp)
    simp only [List.map_cons, tokRun_cons, tokStep, if_neg (not_or.mpr hc), Option.some_bind]
    rw [ih (acc₀ ++ [c]) (fun c' hc' => hp c' (by simp [hc']))]
    simp

/-- Running the automaton over a valid mode's own tokens restores that
mode. -/
theorem tokRun_modeToks (m : Mode) (hv : modeValid m) :
    tokRun .text (modeToks m) = some m := by
  cases m with
  | text => rfl
  | body acc =>
    simp only [modeToks, tokRun_cons, tokStep, Option.some_bind]
    rw [tokRun_body_pchars acc [] hv]
    simp

/-- A closed-mode run with no opener is plain non-ESC text. -/
theorem tokRun_text_no_opener (ts : List Tok) :
    ∀ m', tokRun .text ts = some m' → Tok.opener ∉ ts →
      ∃ xs : List Char, ts = xs.map Tok.tchar ∧ (∀ c ∈ xs, ¬ c = escC) ∧ m' = .text := by
  induction ts with
  | nil =>
    intro m' h _
    simp at h
    exact ⟨[], by simp, by simp, h.symm⟩
  | cons t ts ih =>
    intro m' h hop
    rw [tokRun_cons] at h
    cases t with
    | tchar c =>
      simp only [tokStep] at h
      by_cases he : c = escC
      · rw [if_pos he] at h
        simp at h
      · rw [if_neg he] at h
        simp only [Option.some_bind] at h
        obtain ⟨xs, h1, h2, h3⟩ := ih m' h (fun hm => hop (List.mem_cons_of_mem _ hm))
        refine ⟨c :: xs, by simp [h1], ?_, h3⟩
        intro c' hc'
        rcases List.mem_cons.mp hc' with hc' | hc'
        · subst hc'
          exact he
        · exact h2 c' hc'
    | opener =>
      exact absurd (List.mem_cons_self _ _) hop
    | pchar c => simp [tokStep] at h
    | belTok => simp [tokStep] at h

/-- A run from closed mode containing an opener splits at its first
opener. -/
theorem tokRun_text_first_opener (ts : List Tok) :
    ∀ m', tokRun .text ts = some m' → Tok.opener ∈ ts →
      ∃ (xs : List Char) (tl : List Tok), ts = xs.map Tok.tchar ++ Tok.opener :: tl ∧ (∀ c ∈ xs, ¬ c = escC) ∧
        tokRun (.body []) tl = some m' := by
  induction ts with
  | nil =>
    intro m' _ hop
    simp at hop
  | cons t ts ih =>
    intro m' h hop
    rw [tokRun_cons] at h
    cases t with
    | tchar c =>
      simp only [tokStep] at h
      by_cases he : c = escC
      · rw [if_pos he] at h
        simp at h
      · rw [if_neg he] at h
        simp only [Option.some_bind] at h
        have hop' : Tok.opener ∈ ts := by
          rcases List.mem_cons.mp hop with h' | h'
          · exact absurd h' (by simp)
          · exact h'
        obtain ⟨xs, tl, h1, h2, h3⟩ := ih m' h hop'
        refine ⟨c :: xs, tl, by simp [h1], ?_, h3⟩
        intro c' hc'
        rcases List.mem_cons.mp hc' with hc' | hc'
        · subst hc'
          exact he
        · exact h2 c' hc'
    | opener =>
      simp only [tokStep, Option.some_bind] at h
      exact ⟨[], ts, by simp, by simp, h⟩
    | pchar c => simp [tokStep] at h
    | belTok => simp [tokStep] at h

/-- A run from body mode is payload characters followed either by the
closing BEL or by the end of the stream. -/
theorem tokRun_body_decomp (tl : List Tok) :
    ∀ acc m', tokRun (.body acc) tl = some m' →
      (∃ (pp : List Char) (rest : List Tok), tl = pp.map Tok.pchar ++ Tok.belTok :: rest ∧
        tokRun .text rest = some m') ∨
      (∃ pp : List Char, tl = pp.map Tok.pchar ∧ m' = .body (acc ++ pp)) := by
  induction tl with
  | nil =>
    intro acc m' h
    simp at h
    exact Or.inr ⟨[], by simp, by simp [← h]⟩
  | cons t tl ih =>
    intro acc m' h
    rw [tokRun_cons] at h
    cases t with
    | tchar c => simp [tokStep] at h
    | opener => simp [tokStep] at h
    | pchar c =>
      simp only [tokStep] at h
      by_cases he : c = escC ∨ c = belC
      · rw [if_pos he] at h
        simp at h
      · rw [if_neg he] at h
        simp only [Option.some_bind] at h
        rcases ih (acc ++ [c]) m' h with ⟨pp, rest, h1, h2⟩ | ⟨pp, h1, h2⟩
        · exact Or.inl ⟨c :: pp, rest, by simp [h1], h2⟩
        · exact Or.inr ⟨c :: pp, by simp [h1], by simp [h2]⟩
    | belTok =>
      simp only [tokStep, Option.some_bind] at h
      exact Or.inl ⟨[], tl, by simp, h⟩

/-- A run from closed mode ending open splits at its last opener. -/
theorem tokRun_open_decomp (B : List Tok) :
    ∀ pp, tokRun .text B = some (.body pp) →
      ∃ C, B = C ++ Tok.opener :: pp.map Tok.pchar ∧ tokRun .text C = some .text := by
  induction B using List.reverseRecOn with
  | nil =>
    intro pp h
    simp at h
  | append_singleton B t ih =>
    intro pp h
    rw [tokRun_append] at h
    rcases hB : tokRun .text B with _ | m₁
    · rw [hB] at h
      simp at h
    · rw [hB] at h
      simp only [Option.some_bind, tokRun_cons, tokRun_nil] at h
      cases t with
      | tchar c =>
        cases m₁ with
        | text =>
          simp only [tokStep] at h
          by_cases he : c = escC
          · rw [if_pos he] at h
            simp at h
          · rw [if_neg he] at h
            simp at h
        | body acc => simp [tokStep] at h
      | opener =>
        cases m₁ with
        | text =>
          simp only [tokStep] at h
          simp at h
          obtain rfl : pp = [] := h
          exact ⟨B, by simp, hB⟩
        | body acc => simp [tokStep] at h
      | pchar c =>
        cases m₁ with
        | text => simp [tokStep] at h
        | body acc =>
          simp only [tokStep] at h
          by_cases he : c = escC ∨ c = belC
          · rw [if_pos he] at h
            simp at h
          · rw [if_neg he] at h
            simp at h
            obtain ⟨C, h1, h2⟩ := ih acc hB
            refine ⟨C, ?_, h2⟩
            rw [h1, ← h]
            simp
      | belTok =>
        cases m₁ with
        | text => simp [tokStep] at h
        | body acc => simp [tokStep] at h

/-- A closed run containing an opener ends with a complete last sequence
followed by plain text. -/
theorem tokRun_closed_decomp (B : List Tok) :
    tokRun .text B = some .text → Tok.opener ∈ B →
      ∃ (C : List Tok) (pp D : List Char), B = C ++ Tok.opener :: pp.map Tok.pchar ++ Tok.belTok :: D.map Tok.tchar ∧
        tokRun .text C = some .text := by
  induction B using List.reverseRecOn with
  | nil =>
    intro _ hop
    simp at hop
  | append_singleton B t ih =>
    intro h hop
    rw [tokRun_append] at h
    rcases hB : tokRun .text B with _ | m₁
    · rw [hB] at h
      simp at h
    · rw [hB] at h
      simp only [Option.some_bind, tokRun_cons, tokRun_nil] at h
      cases t with
      | tchar c =>
        cases m₁ with
        | body acc => simp [tokStep] at h
        | text =>
          have hop' : Tok.opener ∈ B := by
            rcases List.mem_append.mp hop with h' | h'
            · exact h'
            · simp at h'
          obtain ⟨C, pp, D, h1, h2⟩ := ih hB hop'
          refine ⟨C, pp, D ++ [c], ?_, h2⟩
          rw [h1]
          simp
      | opener =>
        cases m₁ with
        | text => simp [tokStep] at h
        | body acc => simp [tokStep] at h
      | pchar c =>
        cases m₁ with
        | text => simp [tokStep] at h
        | body acc =>
          simp only [tokStep] at h
          by_cases he : c = escC ∨ c = belC
          · rw [if_pos he] at h
            simp at h
          · rw [if_neg he] at h
            simp at h
      | belTok =>
        cases m₁ with
        | text => simp [tokStep] at h
        | body acc =>
          obtain ⟨C, h1, h2⟩ := tokRun_open_decomp B acc hB
          refine ⟨C, acc, [], ?_, h2⟩
          rw [h1]
          simp

@[simp] theorem renderToks_map_tchar (xs : List Char) :
    renderToks (xs.map Tok.tchar) = xs := by
  induction xs with
  | nil => rfl
  | cons c xs ih => simp [tokRender, ih]

@[simp] theorem renderToks_map_pchar (pp : List Char) :
    renderToks (pp.map Tok.pchar) = pp := by
  induction pp with
  | nil => rfl
  | cons c pp ih => simp [tokRender, ih]

@[simp] theorem cleanToks_map_tchar (xs : List Char) :
    cleanToks (xs.map Tok.tchar) = xs := by
  induction xs with
  | nil => rfl
  | cons c xs ih =>
    simp only [List.map_cons, cleanToks, List.filterMap_cons] at ih ⊢
    rw [ih]

@[simp] theorem cleanToks_map_pchar (pp : List Char) :
    cleanToks (pp.map Tok.pchar) = [] := by
  induction pp with
  | nil => rfl
  | cons c pp ih =>
    simp only [List.map_cons, cleanToks, List.filterMap_cons] at ih ⊢
    exact ih

@[simp] theorem cleanToks_cons_opener (ts : List Tok) :
    cleanToks (Tok.opener :: ts) = cleanToks ts := by
  simp [cleanToks]

@[simp] theorem cleanToks_cons_belTok (ts : List Tok) :
    cleanToks (Tok.belTok :: ts) = cleanToks ts := by
  simp [cleanToks]

@[simp] theorem renderToks_modeToks (m : Mode) :
    renderToks (modeToks m) = pendingOf m := by
  cases m with
  | text => rfl
  | body acc => simp [modeToks, pendingOf, tokRender]

theorem payloadsAcc_map_tchar (xs : List Char) (acc : List Char) (z : List Tok) :
    payloadsAcc acc (xs.map Tok.tchar ++ z) = payloadsAcc acc z := by
  induction xs with
  | nil => rfl
  | cons c xs ih => simp [payloadsAcc, ih]

theorem payloadsAcc_map_pchar (pp : List Char) :
    ∀ acc (z : List Tok), payloadsAcc acc (pp.map Tok.pchar ++ z) = payloadsAcc (acc ++ pp) z := by
  induction pp with
  | nil => intro acc z; simp
  | cons c pp ih =>
    intro acc z
    simp only [List.map_cons, List.cons_append, payloadsAcc, List.append_eq]
    rw [ih (acc ++ [c]) z]
    congr 1
    simp

/-- The open-payload accumulator is irrelevant for a stream that starts in
closed mode (a BEL can only occur after an opener, which resets it). -/
theorem payloadsAcc_text_irrel (z : List Tok) :
    ∀ acc m', tokRun .text z = some m' → payloadsAcc acc z = payloadsAcc [] z := by
  induction z with
  | nil => intro acc m' _; rfl
  | cons t z ih =>
    intro acc m' h
    rw [tokRun_cons] at h
    cases t with
    | tchar c =>
      simp only [tokStep] at h
      by_cases he : c = escC
      · rw [if_pos he] at h
        simp at h
      · rw [if_neg he] at h
        simp only [Option.some_bind] at h
        simp only [payloadsAcc]
        exact ih acc m' h
    | opener => rfl
    | pchar c => simp [tokStep] at h
    | belTok => simp [tokStep] at h

/-! ### Byte-level facts about the opener -/

/-- The opener's tail (all bytes after the leading ESC). -/
def oscPreTail : List Char := [']', '7', '7', '7', '0', ';']

theorem oscPre_eq : oscPre = escC :: oscPreTail := rfl

theorem esc_mem_of_isPre (w : List Char) (h : oscPre <+: w) : escC ∈ w :=
  h.subset (by decide)

theorem no_occ_of_no_esc (b : List Char) (hb : escC ∉ b) (i : Nat) :
    ¬ oscPre <+: b.drop i :=
  fun h => hb (List.drop_subset _ _ (esc_mem_of_isPre _ h))

theorem lastPreIndex_none (b : List Char) (h : ∀ i, ¬ oscPre <+: b.drop i) :
    lastPreIndex b = none := by
  induction b with
  | nil => rfl
  | cons c cs ih =>
    have h' : ∀ i, ¬ oscPre <+: cs.drop i := by
      intro i hi
      exact h (i + 1) (by simpa using hi)
    simp only [lastPreIndex, ih h']
    rw [if_neg (by simpa using h 0)]

theorem lastPreIndex_some (b : List Char) :
    ∀ i, oscPre <+: b.drop i → (∀ j, oscPre <+: b.drop j → j ≤ i) →
      lastPreIndex b = some i := by
  induction b with
  | nil =>
    intro i h _
    rw [List.drop_nil, List.prefix_nil] at h
    exact absurd h (by decide)
  | cons c cs ih =>
    intro i h hmax
    cases i with
    | zero =>
      have hnone : lastPreIndex cs = none := by
        apply lastPreIndex_none
        intro j hj
        have := hmax (j + 1) (by simpa using hj)
        omega
      simp only [lastPreIndex, hnone]
      rw [if_pos (by simpa using h)]
    | succ i =>
      have h' : oscPre <+: cs.drop i := by simpa using h
      have hmax' : ∀ j, oscPre <+: cs.drop j → j ≤ i := by
        intro j hj
        have := hmax (j + 1) (by simpa using hj)
        omega
      simp only [lastPreIndex, ih i h' hmax']

theorem drop_append_plus (x z : List Char) (k : Nat) :
    (x ++ z).drop (x.length + k) = z.drop k := by
  induction x with
  | nil => simp
  | cons c x ih => simpa [Nat.succ_add] using ih

/-- No opener occurrence strictly after a leading block followed by an ESC
whose continuation is ESC-free. -/
theorem occ_le_of_esc_free (x y : List Char) (hy : escC ∉ y) :
    ∀ j, oscPre <+: (x ++ escC :: y).drop j → j ≤ x.length := by
  intro j hj
  by_contra hgt
  push_neg at hgt
  obtain ⟨k, rfl⟩ : ∃ k, j = x.length + (k + 1) := ⟨j - x.length - 1, by omega⟩
  rw [drop_append_plus] at hj
  simp only [List.drop_succ_cons] at hj
  exact hy (List.drop_subset _ _ (esc_mem_of_isPre _ hj))

theorem findOscMatch_none_of_no_esc (s : List Char) (h : escC ∉ s) :
    findOscMatch s = none := by
  induction s with
  | nil => rfl
  | cons c cs ih =>
    have hc : ¬ oscPre <+: (c :: cs) := by
      intro hp
      rw [oscPre_eq] at hp
      exact h (by simp [← (List.cons_prefix_cons.mp hp).1])
    simp only [findOscMatch, if_neg hc]
    rw [ih (fun hm => h (List.mem_cons_of_mem _ hm))]
    rfl

theorem findOscMatch_cons_not_pre (c : Char) (cs : List Char)
    (h : ¬ oscPre <+: (c :: cs)) :
    findOscMatch (c :: cs) = (findOscMatch cs).map (fun r => (c :: r.1, r.2.1, r.2.2)) := by
  simp only [findOscMatch]
  rw [if_neg h]

theorem findOscMatch_skip (xs : List Char) (hxs : ∀ c ∈ xs, ¬ c = escC) (s : List Char) :
    findOscMatch (xs ++ s) =
      (findOscMatch s).map (fun r => (xs ++ r.1, r.2.1, r.2.2)) := by
  induction xs with
  | nil =>
    simp only [List.nil_append]
    rcases hm : findOscMatch s with _ | ⟨a, p, r⟩ <;> simp
  | cons c xs ih =>
    have hc : ¬ oscPre <+: (c :: (xs ++ s)) := by
      intro hp
      rw [oscPre_eq] at hp
      exact hxs c (by simp) ((List.cons_prefix_cons.mp hp).1).symm
    rw [List.cons_append, findOscMatch_cons_not_pre c (xs ++ s) hc,
      ih (fun c' hc' => hxs c' (by simp [hc']))]
    rcases hm : findOscMatch s with _ | ⟨a, p, r⟩ <;> simp

theorem splitAtBel_hit (pp : List Char) (hpp : belC ∉ pp) (rest : List Char) :
    splitAtBel (pp ++ belC :: rest) = some (pp, rest) := by
  induction pp with
  | nil => simp [splitAtBel]
  | cons c pp ih =>
    have hc : ¬ c = belC := by
      intro he
      exact hpp (by simp [he])
    simp [splitAtBel, hc, ih (fun hm => hpp (List.mem_cons_of_mem _ hm))]

theorem findOscMatch_hit (pp : List Char) (hpp : belC ∉ pp) (rest : List Char) :
    findOscMatch (oscPre ++ (pp ++ belC :: rest)) = some ([], pp, rest) := by
  have hassoc : oscPre ++ (pp ++ belC :: rest)
      = escC :: (oscPreTail ++ (pp ++ belC :: rest)) := by
    rw [oscPre_eq]
    simp
  rw [hassoc]
  have hpre : oscPre <+: escC :: (oscPreTail ++ (pp ++ belC :: rest)) := by
    rw [← hassoc]
    exact List.prefix_append _ _
  simp only [findOscMatch, if_pos hpre]
  have hdrop : (escC :: (oscPreTail ++ (pp ++ belC :: rest))).drop 7
      = pp ++ belC :: rest := by
    simp only [List.drop_succ_cons]
    have : oscPreTail.length = 6 := rfl
    rw [← this, List.drop_left]
  rw [hdrop, splitAtBel_hit pp hpp rest]

/-! ### Leftmost-match decomposition of arbitrary byte strings

`findOscMatch` is the leftmost match of `OSC_RE`.  The lemmas below
characterise it on an arbitrary byte string: the text before a match never
contains the 7-byte opener as a substring (but may contain any other bytes,
lone ESCs and ANSI escapes included), the payload runs to the first BEL,
and a matchless string is opener-free text followed by a BEL-free tail
(which covers an incomplete trailing opener). -/

/-- The 7-byte opener `ESC ]7770;` occurs nowhere in `s` as a substring. -/
def openerFree (s : List Char) : Prop := ∀ i, ¬ oscPre <+: s.drop i

theorem openerFree_nil : openerFree [] := by
  intro i h
  rw [List.drop_nil, List.prefix_nil] at h
  exact absurd h (by decide)

theorem openerFree_cons (c : Char) (s : List Char) (h : openerFree (c :: s)) :
    openerFree s := by
  intro i hi
  exact h (i + 1) (by simpa using hi)

theorem openerFree_cons_of (c : Char) (s : List Char) (h1 : ¬ oscPre <+: c :: s)
    (h2 : openerFree s) : openerFree (c :: s) := by
  intro i
  cases i with
  | zero => simpa using h1
  | succ i => simpa using h2 i

/-- A prefix short enough to fit in the left part of an append is a prefix
of that left part. -/
theorem prefix_of_append_left (P A B : List Char) (h : P.length ≤ A.length) :
    P <+: A ++ B ↔ P <+: A := by
  constructor
  · intro hp
    have htk : (A ++ B).take P.length = A.take P.length := by
      rw [List.take_append_eq_append_take, Nat.sub_eq_zero_of_le h]
      simp
    rw [List.prefix_iff_eq_take] at hp ⊢
    rw [htk] at hp
    exact hp
  · intro hp
    exact hp.trans (List.prefix_append A B)

/-- The opener never overlaps itself: no proper nonempty suffix of it is a
prefix of it (its ESC occurs only at position 0 and its `;` only at the
end). -/
theorem oscPre_no_border (m : Nat) (h1 : 0 < m) (h2 : m < 7) :
    ¬ oscPre.drop m <+: oscPre := by
  interval_cases m <;> decide

/-- No opener occurrence starts inside opener-free text followed by an
opener: an occurrence inside the text contradicts `openerFree`, and one
bridging into the following opener would force the opener to overlap
itself. -/
theorem not_opener_prefix_of_openerFree (T Y : List Char) (hT : openerFree T)
    (hne : T ≠ []) : ¬ oscPre <+: T ++ (oscPre ++ Y) := by
  intro hp
  by_cases hlen : 7 ≤ T.length
  · have h7 : oscPre.length ≤ T.length := by
      have ho : oscPre.length = 7 := rfl
      omega
    have hp2 := (prefix_of_append_left oscPre T (oscPre ++ Y) h7).mp hp
    have h0 := hT 0
    rw [List.drop_zero] at h0
    exact h0 hp2
  · push_neg at hlen
    obtain ⟨t, ht⟩ := hp
    have hd := congrArg (List.drop T.length) ht
    rw [List.drop_left, List.drop_append_eq_append_drop] at hd
    have hz : T.length - oscPre.length = 0 := by
      have ho : oscPre.length = 7 := rfl
      omega
    rw [hz, List.drop_zero] at hd
    have hpre2 : oscPre.drop T.length <+: oscPre ++ Y := ⟨t, hd⟩
    have hle : (oscPre.drop T.length).length ≤ oscPre.length := by
      simp [List.length_drop]
    have hpre3 : oscPre.drop T.length <+: oscPre :=
      (prefix_of_append_left _ _ _ hle).mp hpre2
    have hm1 : 0 < T.length := List.length_pos.mpr hne
    exact oscPre_no_border T.length hm1 (by omega) hpre3

theorem splitAtBel_none_of_not_mem (l : List Char) (h : belC ∉ l) :
    splitAtBel l = none := by
  induction l with
  | nil => rfl
  | cons c cs ih =>
    have hc : ¬ c = belC := fun he => h (by simp [he])
    simp only [splitAtBel, if_neg hc,
      ih (fun hm => h (List.mem_cons_of_mem _ hm))]
    rfl

theorem not_mem_of_splitAtBel_none (l : List Char) (h : splitAtBel l = none) :
    belC ∉ l := by
  induction l with
  | nil => simp
  | cons c cs ih =>
    by_cases hc : c = belC
    · subst hc
      simp [splitAtBel] at h
    · simp only [splitAtBel, if_neg hc, Option.map_eq_none'] at h
      intro hm
      rcases List.mem_cons.mp hm with h1 | h1
      · exact hc h1.symm
      · exact ih h h1

theorem splitAtBel_some_decomp (l : List Char) :
    ∀ a b, splitAtBel l = some (a, b) → l = a ++ belC :: b ∧ belC ∉ a := by
  induction l with
  | nil => intro a b h; simp [splitAtBel] at h
  | cons c cs ih =>
    intro a b h
    by_cases hc : c = belC
    · subst hc
      simp [splitAtBel] at h
      obtain ⟨h1, h2⟩ := h
      subst h1
      subst h2
      exact ⟨rfl, by simp⟩
    · simp only [splitAtBel, if_neg hc, Option.map_eq_some'] at h
      obtain ⟨q, hq, hqe⟩ := h
      obtain ⟨q1, q2⟩ := q
      simp at hqe
      obtain ⟨h1, h2⟩ := hqe
      subst h1
      subst h2
      obtain ⟨he, hm⟩ := ih _ _ hq
      refine ⟨by simp [he], ?_⟩
      intro hmem
      rcases List.mem_cons.mp hmem with h1 | h1
      · exact hc h1.symm
      · exact hm h1

/-- The first 7 bytes of a string that the opener prefixes are the opener. -/
theorem take_of_opener_prefix (l : List Char) (h : oscPre <+: l) :
    l.take 7 = oscPre := by
  have := List.prefix_iff_eq_take.mp h
  exact this.symm

/-- A matchless string is opener-free text followed by a BEL-free tail. -/
theorem findOscMatch_none_decomp (s : List Char) (h : findOscMatch s = none) :
    ∃ T R, s = T ++ R ∧ openerFree T ∧ belC ∉ R := by
  induction s with
  | nil => exact ⟨[], [], rfl, openerFree_nil, by simp⟩
  | cons c cs ih =>
    by_cases hpre : oscPre <+: (c :: cs)
    · refine ⟨[], c :: cs, by simp, openerFree_nil, ?_⟩
      rcases hb : splitAtBel ((c :: cs).drop 7) with _ | q
      · have hnb := not_mem_of_splitAtBel_none _ hb
        have htk : (c :: cs).take 7 = oscPre := take_of_opener_prefix _ hpre
        intro hm
        rw [← List.take_append_drop 7 (c :: cs)] at hm
        rcases List.mem_append.mp hm with h1 | h1
        · rw [htk] at h1
          exact absurd h1 (by decide)
        · exact hnb h1
      · obtain ⟨q1, q2⟩ := q
        simp only [findOscMatch, if_pos hpre] at h
        rw [hb] at h
        simp at h
    · rw [findOscMatch_cons_not_pre c cs hpre, Option.map_eq_none'] at h
      obtain ⟨T, R, hTR, hT, hR⟩ := ih h
      have h1 : ¬ oscPre <+: c :: T := by
        intro hp2
        apply hpre
        have h2 : (c :: T) <+: (c :: T) ++ R := List.prefix_append _ _
        have h3 := hp2.trans h2
        simpa [hTR] using h3
      exact ⟨c :: T, R, by simp [hTR], openerFree_cons_of c T h1 hT, hR⟩

/-- A leftmost match decomposes the string: opener-free text, the opener,
a BEL-free payload, the closing BEL, and the rest. -/
theorem findOscMatch_some_decomp (s : List Char) :
    ∀ a p r, findOscMatch s = some (a, p, r) →
      s = a ++ (oscPre ++ (p ++ belC :: r)) ∧ openerFree a ∧ belC ∉ p := by
  induction s with
  | nil => intro a p r h; simp [findOscMatch] at h
  | cons c cs ih =>
    intro a p r h
    by_cases hpre : oscPre <+: (c :: cs)
    · rcases hb : splitAtBel ((c :: cs).drop 7) with _ | q
      · simp only [findOscMatch, if_pos hpre] at h
        rw [hb] at h
        simp at h
      · obtain ⟨q1, q2⟩ := q
        simp only [findOscMatch, if_pos hpre] at h
        rw [hb] at h
        simp at h
        obtain ⟨h1, h2, h3⟩ := h
        subst h1
        subst h2
        subst h3
        obtain ⟨hdec, hnb⟩ := splitAtBel_some_decomp _ _ _ hb
        refine ⟨?_, openerFree_nil, hnb⟩
        have htk : (c :: cs).take 7 = oscPre := take_of_opener_prefix _ hpre
        calc c :: cs = (c :: cs).take 7 ++ (c :: cs).drop 7 :=
              (List.take_append_drop _ _).symm
          _ = oscPre ++ (q1 ++ belC :: q2) := by rw [htk, hdec]
          _ = [] ++ (oscPre ++ (q1 ++ belC :: q2)) := by simp
    · rw [findOscMatch_cons_not_pre c cs hpre, Option.map_eq_some'] at h
      obtain ⟨q, hq, hqe⟩ := h
      obtain ⟨a', p', r'⟩ := q
      simp at hqe
      obtain ⟨h1, h2, h3⟩ := hqe
      subst h1
      subst h2
      subst h3
      obtain ⟨hdec, hof, hnb⟩ := ih _ _ _ hq
      refine ⟨by simp [hdec], ?_, hnb⟩
      apply openerFree_cons_of c a' ?_ hof
      intro hp2
      apply hpre
      have h4 : (c :: a') <+: c :: cs := by
        rw [hdec]
        exact ⟨_, rfl⟩
      exact hp2.trans h4

theorem findOscMatch_none_of_no_bel (s : List Char) (h : belC ∉ s) :
    findOscMatch s = none := by
  induction s with
  | nil => rfl
  | cons c cs ih =>
    by_cases hpre : oscPre <+: (c :: cs)
    · have hnb : splitAtBel ((c :: cs).drop 7) = none :=
        splitAtBel_none_of_not_mem _ (fun hm => h (List.drop_subset _ _ hm))
      simp only [findOscMatch, if_pos hpre]
      rw [hnb]
    · rw [findOscMatch_cons_not_pre c cs hpre,
        ih (fun hm => h (List.mem_cons_of_mem _ hm))]
      rfl

/-- Opener-free text followed by a BEL-free tail has no match: every opener
occurrence (necessarily reaching into the tail) has no BEL after it. -/
theorem findOscMatch_text_none (T R : List Char) (hT : openerFree T) (hR : belC ∉ R) :
    findOscMatch (T ++ R) = none := by
  induction T with
  | nil => simpa using findOscMatch_none_of_no_bel R hR
  | cons c T' ih =>
    rw [List.cons_append]
    by_cases hpre : oscPre <+: c :: (T' ++ R)
    · by_cases h7 : 7 ≤ T'.length + 1
      · exfalso
        have hlen : oscPre.length ≤ (c :: T').length := by
          have ho : oscPre.length = 7 := rfl
          simp only [List.length_cons]
          omega
        have hp2 : oscPre <+: (c :: T') :=
          (prefix_of_append_left oscPre (c :: T') R hlen).mp (by simpa using hpre)
        have h0 := hT 0
        rw [List.drop_zero] at h0
        exact h0 hp2
      · rcases hb : splitAtBel ((c :: (T' ++ R)).drop 7) with _ | q
        · simp only [findOscMatch, if_pos hpre]
          rw [hb]
        · exfalso
          obtain ⟨q1, q2⟩ := q
          have hmem : belC ∈ (c :: (T' ++ R)).drop 7 := by
            obtain ⟨hdec, _⟩ := splitAtBel_some_decomp _ _ _ hb
            rw [hdec]
            simp
          have hd : (c :: (T' ++ R)).drop 7 = R.drop (7 - (T'.length + 1)) := by
            rw [← List.cons_append, List.drop_append_eq_append_drop]
            have h1 : (c :: T').drop 7 = [] :=
              List.drop_eq_nil_of_le (by simp only [List.length_cons]; omega)
            rw [h1, List.nil_append]
            congr 1
          rw [hd] at hmem
          exact hR (List.drop_subset _ _ hmem)
    · rw [findOscMatch_cons_not_pre c (T' ++ R) hpre, ih (openerFree_cons c T' hT)]
      rfl

/-- The leftmost match after opener-free text is the first complete
sequence following it. -/
theorem findOscMatch_seg (T p rest : List Char) (hT : openerFree T) (hp : belC ∉ p) :
    findOscMatch (T ++ (oscPre ++ (p ++ belC :: rest))) = some (T, p, rest) := by
  induction T with
  | nil => simpa using findOscMatch_hit p hp rest
  | cons c T' ih =>
    rw [List.cons_append]
    have hnp : ¬ oscPre <+: c :: (T' ++ (oscPre ++ (p ++ belC :: rest))) := by
      have h1 := not_opener_prefix_of_openerFree (c :: T') (p ++ belC :: rest) hT (by simp)
      simpa using h1
    rw [findOscMatch_cons_not_pre _ _ hnp, ih (openerFree_cons c T' hT)]
    rfl

/-- Bytes of one complete OSC sequence followed by its trailing text:
`ESC]7770; payload BEL text`. -/
def oscSeg (pr : List Char × List Char) : List Char := oscPre ++ (pr.1 ++ belC :: pr.2)

/-- `replace(OSC_RE, …)` on a decomposed string: every complete sequence of
the decomposition is removed, everything else passes through in order, and
the payloads are collected in match order. -/
theorem stripOsc_decomp (segs : List (List Char × List Char)) :
    ∀ (T0 R : List Char), openerFree T0 →
      (∀ pr ∈ segs, belC ∉ pr.1 ∧ openerFree pr.2) → belC ∉ R →
      stripOsc (T0 ++ ((segs.map oscSeg).flatten ++ R))
        = (T0 ++ ((segs.map Prod.snd).flatten ++ R), segs.map Prod.fst) := by
  induction segs with
  | nil =>
    intro T0 R hT0 _ hR
    simp only [List.map_nil, List.flatten_nil, List.nil_append]
    rw [stripOsc_of_none _ (findOscMatch_text_none T0 R hT0 hR)]
  | cons pr segs ih =>
    intro T0 R hT0 hsegs hR
    obtain ⟨p, T1⟩ := pr
    have hshape : T0 ++ ((((p, T1) :: segs).map oscSeg).flatten ++ R)
        = T0 ++ (oscPre ++ (p ++ belC :: (T1 ++ ((segs.map oscSeg).flatten ++ R)))) := by
      simp [oscSeg, List.append_assoc]
    rw [hshape]
    have hp : belC ∉ p := (hsegs (p, T1) (by simp)).1
    have hT1 : openerFree T1 := (hsegs (p, T1) (by simp)).2
    rw [stripOsc_of_some _ _ _ _ (findOscMatch_seg T0 p _ hT0 hp)]
    rw [ih T1 R hT1 (fun q hq => hsegs q (by simp [hq])) hR]
    simp [List.append_assoc]

/-- Every byte string decomposes as opener-free text, a run of complete
sequences each followed by opener-free text, and a BEL-free tail. -/
theorem stripOsc_decomp_exists_aux (n : Nat) :
    ∀ s : List Char, s.length ≤ n →
      ∃ (T0 : List Char) (segs : List (List Char × List Char)) (R : List Char),
        s = T0 ++ ((segs.map oscSeg).flatten ++ R) ∧ openerFree T0 ∧
        (∀ pr ∈ segs, belC ∉ pr.1 ∧ openerFree pr.2) ∧ belC ∉ R := by
  induction n using Nat.strong_induction_on with
  | _ n ih =>
    intro s hs
    rcases hm : findOscMatch s with _ | ⟨a, p, r⟩
    · obtain ⟨T, R, hTR, hT, hR⟩ := findOscMatch_none_decomp s hm
      exact ⟨T, [], R, by simpa using hTR, hT, by simp, hR⟩
    · obtain ⟨hdec, ha, hp⟩ := findOscMatch_some_decomp s a p r hm
      have hlen := findOscMatch_length s a p r hm
      have hr : r.length < n := by omega
      obtain ⟨T0', segs', R', hdec', hT0', hsegs', hR'⟩ :=
        ih r.length hr r (Nat.le_refl _)
      refine ⟨a, (p, T0') :: segs', R', ?_, ha, ?_, hR'⟩
      · rw [hdec, hdec']
        simp [oscSeg, List.append_assoc]
      · intro q hq
        rcases List.mem_cons.mp hq with h1 | h1
        · subst h1
          exact ⟨hp, hT0'⟩
        · exact hsegs' q h1

theorem payloadsOf_map_tchar (xs : List Char) : payloadsOf (xs.map Tok.tchar) = [] := by
  have h := payloadsAcc_map_tchar xs [] []
  simpa [payloadsOf] using h

theorem payloadsAcc_map_tchar_only (xs : List Char) (acc : List Char) :
    payloadsAcc acc (xs.map Tok.tchar) = [] := by
  have h := payloadsAcc_map_tchar xs acc []
  simpa using h

/-- `stripOsc` on the render of a closed well-formed stream removes exactly
the complete sequences and returns the payloads in order. -/
theorem stripOsc_closed_aux (n : Nat) :
    ∀ C : List Tok, C.length ≤ n → tokRun .text C = some .text →
      stripOsc (renderToks C) = (cleanToks C, payloadsOf C) := by
  induction n with
  | zero =>
    intro C hlen hC
    have hnil : C = [] := List.eq_nil_of_length_eq_zero (Nat.le_zero.mp hlen)
    subst hnil
    rw [renderToks_nil, stripOsc_of_none [] rfl]
    rfl
  | succ n ih =>
    intro C hlen hC
    by_cases hop : Tok.opener ∈ C
    · obtain ⟨xs, tl, hdec, hxs, htl⟩ := tokRun_text_first_opener C .text hC hop
      rcases tokRun_body_decomp tl [] .text htl with ⟨pp, rest, hdec2, hrest⟩ | ⟨pp, hdec2, habs⟩
      · have hcl := tokRun_char_classes C .text .text hC
        have hppc : ∀ c ∈ pp, ¬ c = escC ∧ ¬ c = belC := by
          intro c hc
          apply hcl.2
          rw [hdec, hdec2]
          simp [hc]
        have hbel : belC ∉ pp := fun hm => (hppc _ hm).2 rfl
        subst hdec2
        subst hdec
        have hrw : renderToks (xs.map Tok.tchar ++ Tok.opener :: (pp.map Tok.pchar ++ Tok.belTok :: rest))
            = xs ++ (oscPre ++ (pp ++ belC :: renderToks rest)) := by
          simp [tokRender]
        rw [hrw]
        have hfm : findOscMatch (xs ++ (oscPre ++ (pp ++ belC :: renderToks rest)))
            = some (xs, pp, renderToks rest) := by
          rw [findOscMatch_skip xs hxs _, findOscMatch_hit pp hbel _]
          simp
        rw [stripOsc_of_some _ _ _ _ hfm]
        have hlen' : rest.length ≤ n := by
          simp only [List.length_append, List.length_map, List.length_cons] at hlen
          omega
        rw [ih rest hlen' hrest]
        simp only [Prod.mk.injEq]
        constructor
        · simp
        · simp only [payloadsOf, payloadsAcc_map_tchar, payloadsAcc, payloadsAcc_map_pchar,
            List.nil_append]
      · exact absurd habs (by simp)
    · obtain ⟨xs, hdec, hxs, _⟩ := tokRun_text_no_opener C .text hC hop
      subst hdec
      have hesc : escC ∉ renderToks (xs.map Tok.tchar) := by
        rw [renderToks_map_tchar]
        intro hm
        exact hxs escC hm rfl
      rw [stripOsc_of_none _ (findOscMatch_none_of_no_esc _ hesc)]
      rw [renderToks_map_tchar, cleanToks_map_tchar, payloadsOf_map_tchar]

/-- `stripOsc` on a closed well-formed stream. -/
theorem stripOsc_closed (C : List Tok) (hC : tokRun .text C = some .text) :
    stripOsc (renderToks C) = (cleanToks C, payloadsOf C) :=
  stripOsc_closed_aux C.length C (Nat.le_refl _) hC

/-- Payload extraction distributes over a closed prefix. -/
theorem payloadsAcc_closed_append_aux (n : Nat) :
    ∀ C : List Tok, C.length ≤ n → ∀ (z : List Tok) (acc : List Char) (m' : Mode),
      tokRun .text C = some .text → tokRun .text z = some m' →
      payloadsAcc acc (C ++ z) = payloadsAcc acc C ++ payloadsAcc [] z := by
  induction n with
  | zero =>
    intro C hlen z acc m' hC hz
    have hnil : C = [] := List.eq_nil_of_length_eq_zero (Nat.le_zero.mp hlen)
    subst hnil
    simp only [List.nil_append, payloadsAcc]
    rw [payloadsAcc_text_irrel z acc m' hz]
  | succ n ih =>
    intro C hlen z acc m' hC hz
    by_cases hop : Tok.opener ∈ C
    · obtain ⟨xs, tl, hdec, hxs, htl⟩ := tokRun_text_first_opener C .text hC hop
      rcases tokRun_body_decomp tl [] .text htl with ⟨pp, rest, hdec2, hrest⟩ | ⟨pp, hdec2, habs⟩
      · subst hdec2
        subst hdec
        have hre1 : (xs.map Tok.tchar ++ Tok.opener :: (pp.map Tok.pchar ++ Tok.belTok :: rest)) ++ z
            = xs.map Tok.tchar ++ Tok.opener :: (pp.map Tok.pchar ++ Tok.belTok :: (rest ++ z)) := by
          simp
        have hlen' : rest.length ≤ n := by
          simp only [List.length_append, List.length_map, List.length_cons] at hlen
          omega
        rw [hre1, payloadsAcc_map_tchar, payloadsAcc_map_tchar]
        simp only [payloadsAcc, payloadsAcc_map_pchar, List.nil_append]
        rw [ih rest hlen' z [] m' hrest hz]
        simp
      · exact absurd habs (by simp)
    · obtain ⟨xs, hdec, hxs, _⟩ := tokRun_text_no_opener C .text hC hop
      subst hdec
      rw [payloadsAcc_map_tchar, payloadsAcc_map_tchar_only,
        payloadsAcc_text_irrel z acc m' hz]
      simp

/-- Payload extraction over a closed prefix, accumulator-free form. -/
theorem payloadsOf_closed_append (C z : List Tok) (m' : Mode)
    (hC : tokRun .text C = some .text) (hz : tokRun .text z = some m') :
    payloadsOf (C ++ z) = payloadsOf C ++ payloadsOf z :=
  payloadsAcc_closed_append_aux C.length C (Nat.le_refl _) z [] m' hC hz

theorem escC_not_mem_oscPreTail : escC ∉ oscPreTail := by decide

theorem belC_not_mem_oscPre : belC ∉ oscPre := by decide

/-- `lastPreIndex` of a block followed by an opener whose continuation is
ESC-free. -/
theorem lastPreIndex_block (x w : List Char) (hw : escC ∉ oscPreTail ++ w) :
    lastPreIndex (x ++ (oscPre ++ w)) = some x.length := by
  have hform : oscPre ++ w = escC :: (oscPreTail ++ w) := by
    rw [oscPre_eq]
    simp
  have hocc : oscPre <+: (x ++ (oscPre ++ w)).drop x.length := by
    have hd : (x ++ (oscPre ++ w)).drop x.length = oscPre ++ w := by
      have := drop_append_plus x (oscPre ++ w) 0
      simpa using this
    rw [hd]
    exact List.prefix_append _ _
  apply lastPreIndex_some _ x.length hocc
  intro j hj
  rw [hform] at hj
  exact occ_le_of_esc_free x (oscPreTail ++ w) hw j hj

/-- The reassembly step on the render of a valid chunk: it emits exactly the
closed part of the buffer and stashes the render of the open tail. -/
theorem oscStep_valid (m m₂ : Mode) (ct : List Tok)
    (h : tokRun .text (modeToks m ++ ct) = some m₂) :
    ∃ C : List Tok, modeToks m ++ ct = C ++ modeToks m₂ ∧ tokRun .text C = some .text ∧
      oscStep (pendingOf m) (renderToks ct) = (renderToks C, pendingOf m₂) := by
  have hb : pendingOf m ++ renderToks ct = renderToks (modeToks m ++ ct) := by
    rw [renderToks_append, renderToks_modeToks]
  have hcls := tokRun_char_classes (modeToks m ++ ct) .text m₂ h
  cases m₂ with
  | text =>
    refine ⟨modeToks m ++ ct, by simp [modeToks], h, ?_⟩
    by_cases hop : Tok.opener ∈ (modeToks m ++ ct)
    · obtain ⟨C', pp, D, hdec, hC'⟩ := tokRun_closed_decomp _ h hop
      have hppc : ∀ c ∈ pp, ¬ c = escC ∧ ¬ c = belC := by
        intro c hc
        apply hcls.2
        rw [hdec]
        simp [hc]
      have hDc : ∀ c ∈ D, ¬ c = escC := by
        intro c hc
        apply hcls.1
        rw [hdec]
        simp [hc]
      have hbform : renderToks (modeToks m ++ ct)
          = renderToks C' ++ (oscPre ++ (pp ++ (belC :: D))) := by
        rw [hdec]
        simp [tokRender]
      have hwesc : escC ∉ oscPreTail ++ (pp ++ (belC :: D)) := by
        intro hm
        rcases List.mem_append.mp hm with hm | hm
        · exact escC_not_mem_oscPreTail hm
        · rcases List.mem_append.mp hm with hm | hm
          · exact (hppc _ hm).1 rfl
          · rcases List.mem_cons.mp hm with hm | hm
            · exact absurd hm (by decide)
            · exact hDc _ hm rfl
      have hlast : lastPreIndex (pendingOf m ++ renderToks ct)
          = some (renderToks C').length := by
        rw [hb, hbform]
        exact lastPreIndex_block _ _ hwesc
      have hbelf : hasBelFrom (pendingOf m ++ renderToks ct) (renderToks C').length = true := by
        unfold hasBelFrom
        rw [hb, hbform]
        have hd : (renderToks C' ++ (oscPre ++ (pp ++ (belC :: D)))).drop (renderToks C').length
            = oscPre ++ (pp ++ (belC :: D)) := by
          have := drop_append_plus (renderToks C') (oscPre ++ (pp ++ (belC :: D))) 0
          simpa using this
        rw [hd]
        simp
      simp only [oscStep, hlast, hbelf, if_pos]
      rw [hb]
      simp [pendingOf]
    · obtain ⟨xs, hdec, hxs, _⟩ := tokRun_text_no_opener _ .text h hop
      have hesc : escC ∉ renderToks (modeToks m ++ ct) := by
        rw [hdec, renderToks_map_tchar]
        intro hm
        exact hxs escC hm rfl
      have hlast : lastPreIndex (pendingOf m ++ renderToks ct) = none := by
        rw [hb]
        exact lastPreIndex_none _ (fun i => no_occ_of_no_esc _ hesc i)
      simp only [oscStep, hlast]
      rw [hb]
      simp [pendingOf]
  | body pp =>
    obtain ⟨C', hdec, hC'⟩ := tokRun_open_decomp _ pp h
    have hppc : ∀ c ∈ pp, ¬ c = escC ∧ ¬ c = belC := by
      intro c hc
      apply hcls.2
      rw [hdec]
      simp [hc]
    have hbform : renderToks (modeToks m ++ ct) = renderToks C' ++ (oscPre ++ pp) := by
      rw [hdec]
      simp [tokRender]
    have hwesc : escC ∉ oscPreTail ++ pp := by
      intro hm
      rcases List.mem_append.mp hm with hm | hm
      · exact escC_not_mem_oscPreTail hm
      · exact (hppc _ hm).1 rfl
    have hlast : lastPreIndex (pendingOf m ++ renderToks ct)
        = some (renderToks C').length := by
      rw [hb, hbform]
      exact lastPreIndex_block _ _ hwesc
    have hd : (renderToks C' ++ (oscPre ++ pp)).drop (renderToks C').length
        = oscPre ++ pp := by
      have := drop_append_plus (renderToks C') (oscPre ++ pp) 0
      simpa using this
    have hbelf : hasBelFrom (pendingOf m ++ renderToks ct) (renderToks C').length = false := by
      unfold hasBelFrom
      rw [hb, hbform, hd]
      simp only [decide_eq_false_iff_not]
      intro hm
      rcases List.mem_append.mp hm with hm | hm
      · exact belC_not_mem_oscPre hm
      · exact (hppc _ hm).2 rfl
    refine ⟨C', by rw [hdec]; rfl, hC', ?_⟩
    simp only [oscStep, hlast, hbelf]
    rw [hb, hbform]
    simp only [Bool.false_eq_true, if_false, Prod.mk.injEq]
    constructor
    · rw [List.take_left]
    · rw [List.drop_left]
      rfl

/-- Apply the status side effects of a payload list in order. -/
def applyPayloads (tid : String) (st : TerminalStore) (ps : List (List Char)) : TerminalStore :=
  ps.foldl (payloadAction tid) st

theorem applyPayloads_append (tid : String) (st : TerminalStore) (a b : List (List Char)) :
    applyPayloads tid st (a ++ b) = applyPayloads tid (applyPayloads tid st a) b := by
  simp [applyPayloads, List.foldl_append]

theorem renderToks_flatten (tcs : List (List Tok)) :
    (tcs.map renderToks).flatten = renderToks tcs.flatten := by
  induction tcs with
  | nil => rfl
  | cons ct tcs ih => simp [ih]

/-- Invariant of the chunk fold: starting in a valid mode, processing a list
of valid token chunks emits the cleaned bytes of the closed part, applies
its payload side effects in order, and holds back the open tail. -/
theorem processChunks_fold (tid : String) :
    ∀ (tcs : List (List Tok)) (m m' : Mode) (st0 : TerminalStore) (out0 : List Char),
      modeValid m →
      tokRun .text (modeToks m ++ tcs.flatten) = some m' →
      ∃ C : List Tok, modeToks m ++ tcs.flatten = C ++ modeToks m' ∧
        tokRun .text C = some .text ∧
        List.foldl (processChunk tid) ⟨out0, st0, pendingOf m⟩ (tcs.map renderToks)
          = ⟨out0 ++ cleanToks C, applyPayloads tid st0 (payloadsOf C), pendingOf m'⟩ := by
  intro tcs
  induction tcs with
  | nil =>
    intro m m' st0 out0 hv h
    simp only [List.flatten_nil, List.append_nil] at h
    rw [tokRun_modeToks m hv] at h
    obtain rfl : m = m' := by injection h
    refine ⟨[], by simp, rfl, ?_⟩
    simp [applyPayloads, payloadsOf, payloadsAcc]
  | cons ct tcs ih =>
    intro m m' st0 out0 hv h
    have h2 : tokRun .text ((modeToks m ++ ct) ++ tcs.flatten) = some m' := by
      rw [List.append_assoc]
      simpa using h
    obtain ⟨m₁, hm₁, hrest⟩ := tokRun_append_split .text m' (modeToks m ++ ct) tcs.flatten h2
    obtain ⟨C₁, hdec₁, hC₁, hstep⟩ := oscStep_valid m m₁ ct hm₁
    have hv₁ : modeValid m₁ := tokRun_modeValid _ .text m₁ hm₁ trivial
    have hrest' : tokRun .text (modeToks m₁ ++ tcs.flatten) = some m' := by
      rw [tokRun_append, tokRun_modeToks m₁ hv₁]
      simpa using hrest
    obtain ⟨C₂, hdec₂, hC₂, hfold⟩ :=
      ih m₁ m' (applyPayloads tid st0 (payloadsOf C₁)) (out0 ++ cleanToks C₁) hv₁ hrest'
    refine ⟨C₁ ++ C₂, ?_, ?_, ?_⟩
    · calc modeToks m ++ (ct :: tcs).flatten
          = (modeToks m ++ ct) ++ tcs.flatten := by simp
        _ = (C₁ ++ modeToks m₁) ++ tcs.flatten := by rw [hdec₁]
        _ = C₁ ++ (modeToks m₁ ++ tcs.flatten) := by rw [List.append_assoc]
        _ = C₁ ++ (C₂ ++ modeToks m') := by rw [hdec₂]
        _ = (C₁ ++ C₂) ++ modeToks m' := by rw [List.append_assoc]
    · rw [tokRun_append, hC₁]
      simpa using hC₂
    · simp only [List.map_cons, List.foldl_cons]
      have hpc : processChunk tid ⟨out0, st0, pendingOf m⟩ (renderToks ct)
          = ⟨out0 ++ cleanToks C₁, applyPayloads tid st0 (payloadsOf C₁), pendingOf m₁⟩ := by
        unfold processChunk
        simp only
        rw [hstep]
        unfold parseShellIntegration
        rw [stripOsc_closed C₁ hC₁]
        rfl
      rw [hpc, hfold]
      rw [cleanToks_append, payloadsOf_closed_append C₁ C₂ .text hC₁ hC₂,
        applyPayloads_append, List.append_assoc]

/-- C2 (amended): for every well-formed input — an interleaving of complete
OSC 7770 sequences (payloads free of ESC and BEL) with ESC-free text,
represented as a closed token stream — and for every chunk partition whose
boundaries never fall strictly inside a 7-byte opener (partitions of the
token list; boundaries may fall anywhere else, including inside payloads),
the concatenation of the processor's cleaned outputs equals the input with
all complete OSC sequences removed, the final store equals the one produced
by single-shot `parseShellIntegration` (statuses applied in order, so the
last OSC dictates the final status/exitCode), and no bytes stay stashed. -/
theorem osc_roundtrip_amended (tid : String) (st0 : TerminalStore)
    (tcs : List (List Tok)) (h : tokRun .text tcs.flatten = some .text) :
    (processChunks tid st0 (tcs.map renderToks)).out
        = (stripOsc (renderToks tcs.flatten)).1 ∧
    (processChunks tid st0 (tcs.map renderToks)).store
        = (parseShellIntegration tid st0 (renderToks tcs.flatten)).2 ∧
    (processChunks tid st0 (tcs.map renderToks)).pending = [] ∧
    (tcs.map renderToks).flatten = renderToks tcs.flatten := by
  have h' : tokRun .text (modeToks .text ++ tcs.flatten) = some .text := by
    simpa [modeToks] using h
  obtain ⟨C, hdec, hC, hfold⟩ := processChunks_fold tid tcs .text .text st0 [] trivial h'
  have hCeq : tcs.flatten = C := by
    simpa [modeToks] using hdec
  subst hCeq
  unfold processChunks
  have hpend : pendingOf Mode.text = [] := rfl
  rw [hpend] at hfold
  rw [hfold]
  unfold parseShellIntegration
  rw [stripOsc_closed tcs.flatten hC]
  exact ⟨by simp, rfl, rfl, renderToks_flatten tcs⟩

/-- Token chunks for the C2 witness: `"a" ESC]7770;p` then `BEL "b"` — the
payload is split across the chunk boundary. -/
def egTokChunks : List (List Tok) :=
  [[.tchar 'a', .opener, .pchar 'p'], [.belTok, .tchar 'b']]

/-- Witness for C2 (amended) at a concrete split-payload partition. -/
theorem osc_roundtrip_amended_witness :
    (processChunks "t" egOscStore (egTokChunks.map renderToks)).out
        = (stripOsc (renderToks egTokChunks.flatten)).1 ∧
    (processChunks "t" egOscStore (egTokChunks.map renderToks)).pending = [] := by
  have h := osc_roundtrip_amended "t" egOscStore egTokChunks (by decide)
  exact ⟨h.1, h.2.2.1⟩

/-- C5 (amended): every input string decomposes as opener-free text `T0`
(arbitrary bytes — lone ESCs and ANSI escapes included — as long as the
7-byte opener `ESC]7770;` does not occur in it), complete sequences
`ESC]7770; pᵢ BEL` with BEL-free payloads `pᵢ`, each followed by
opener-free text `Tᵢ`, and a BEL-free tail `R` (covering an incomplete
trailing opener); on it `parseShellIntegration` returns exactly
`T0 T1 … Tk R` — every complete sequence of the decomposition removed, all
other bytes passed through unchanged in order — and applies the payload
actions in match order, where a `preexec` payload sets the session's status
to `running`, a `precmd;<n>` payload sets it to `done` when n = 0 and
`error` otherwise and records `exitCode = n`, and any other payload leaves
the store unchanged. -/
theorem parseShellIntegration_amended (tid : String) (st : TerminalStore) (s : List Char) :
    (∃ (T0 : List Char) (segs : List (List Char × List Char)) (R : List Char),
      s = T0 ++ ((segs.map oscSeg).flatten ++ R) ∧
      openerFree T0 ∧ (∀ pr ∈ segs, belC ∉ pr.1 ∧ openerFree pr.2) ∧ belC ∉ R ∧
      parseShellIntegration tid st s
        = (T0 ++ ((segs.map Prod.snd).flatten ++ R),
           applyPayloads tid st (segs.map Prod.fst))) ∧
    (∀ (st₁ : TerminalStore) (s₁ : TerminalSession), st₁.sessions.lookup tid = some s₁ →
      (payloadAction tid st₁ "preexec".toList).sessions.lookup tid
        = some { s₁ with status := .running, exitCode := none }) ∧
    (∀ (st₁ : TerminalStore) (s₁ : TerminalSession), st₁.sessions.lookup tid = some s₁ →
      ∀ ds : List Char, ds ≠ [] → (∀ c ∈ ds, c ∈ "0123456789".toList) →
        (payloadAction tid st₁ ("precmd;".toList ++ ds)).sessions.lookup tid
          = some { s₁ with
              status := if (digitsVal ds : Int) = 0 then .done else .error,
              exitCode := some (digitsVal ds) }) ∧
    (∀ (st₁ : TerminalStore) (p : List Char), ¬ p = "preexec".toList →
      ¬ ("precmd;".toList <+: p) → payloadAction tid st₁ p = st₁) := by
  refine ⟨?_, ?_, ?_, ?_⟩
  · obtain ⟨T0, segs, R, hdec, hT0, hsegs, hR⟩ :=
      stripOsc_decomp_exists_aux s.length s (Nat.le_refl _)
    refine ⟨T0, segs, R, hdec, hT0, hsegs, hR, ?_⟩
    rw [hdec]
    unfold parseShellIntegration
    rw [stripOsc_decomp segs T0 R hT0 hsegs hR]
    rfl
  · intro st₁ s₁ hs
    simp only [payloadAction, if_pos rfl]
    unfold TerminalStore.updateStatus
    rw [hs]
    exact ORec.lookup_insert _ _ _
  · intro st₁ s₁ hs ds hne hds
    have hnp : ¬ ("precmd;".toList ++ ds) = "preexec".toList := by
      intro he
      have hlen := congrArg List.length he
      simp at hlen
      exact hne hlen
    have hpre : "precmd;".toList <+: ("precmd;".toList ++ ds) := List.prefix_append _ _
    simp only [payloadAction, if_neg hnp, if_pos hpre]
    have hdrop : ("precmd;".toList ++ ds).drop 7 = ds := by
      have h7 : ("precmd;".toList).length = 7 := rfl
      rw [← h7, List.drop_left]
    rw [hdrop, jsParseInt_digits ds hne hds]
    unfold TerminalStore.updateStatus
    rw [hs]
    exact ORec.lookup_insert _ _ _
  · intro st₁ p h1 h2
    simp only [payloadAction, if_neg h1, if_neg h2]

/-- Bytes of the C5 amended witness: ANSI-colored text (a lone ESC that is
not an opener), one complete `preexec` sequence, trailing text `ok`, and an
incomplete trailing opener fragment `ESC]77`. -/
def wit5 : List Char :=
  (escC :: "[31mred".toList)
    ++ (oscSeg ("preexec".toList, "ok".toList) ++ (escC :: "]77".toList))

/-- Witness for C5 (amended) at a concrete input containing an ANSI escape,
one complete sequence and an incomplete trailing opener: the ANSI bytes and
the opener fragment pass through, the sequence is stripped, the status
becomes `running`. -/
theorem parseShellIntegration_amended_witness :
    (∃ (T0 : List Char) (segs : List (List Char × List Char)) (R : List Char),
      wit5 = T0 ++ ((segs.map oscSeg).flatten ++ R) ∧
      openerFree T0 ∧ (∀ pr ∈ segs, belC ∉ pr.1 ∧ openerFree pr.2) ∧ belC ∉ R ∧
      parseShellIntegration "t" egOscStore wit5
        = (T0 ++ ((segs.map Prod.snd).flatten ++ R),
           applyPayloads "t" egOscStore (segs.map Prod.fst))) ∧
    (parseShellIntegration "t" egOscStore wit5).1
        = (escC :: "[31mred".toList) ++ ("ok".toList ++ (escC :: "]77".toList)) ∧
    ((parseShellIntegration "t" egOscStore wit5).2.sessions.lookup "t").map
        TerminalSession.status = some .running := by
  refine ⟨(parseShellIntegration_amended "t" egOscStore wit5).1, by decide, by decide⟩

/-- Input of the C5 counterexample: the byte string
`ESC]7770; ESC]7770;preexec BEL`; after its first 7 bytes the complete
sequence `ESC]7770;preexec BEL`, whose payload is `preexec`, is embedded. -/
def cex5 : List Char := oscPre ++ ((oscPre ++ ("preexec".toList ++ [belC])) ++ [])

/-- C5 counterexample: the claim fails on `cex5`: a complete sequence
`ESC]7770;preexec BEL` with payload `preexec` is embedded in the input, yet
parsing leaves the session status `done` instead of setting it to
`running` — the regex matches from the leftmost opener, so the whole input
is one match whose BEL-free payload `ESC]7770;preexec` is not `preexec` and
triggers no status update. -/
theorem parseShellIntegration_counterexample :
    (∃ A B : List Char, cex5 = A ++ ((oscPre ++ ("preexec".toList ++ [belC])) ++ B)) ∧
    belC ∉ "preexec".toList ∧
    (egOscStore.sessions.lookup "t").map TerminalSession.status = some .done ∧
    ((parseShellIntegration "t" egOscStore cex5).2.sessions.lookup "t").map
        TerminalSession.status = some .done ∧
    TStatus.done ≠ TStatus.running ∧
    (parseShellIntegration "t" egOscStore cex5).1 = [] := by
  exact ⟨⟨oscPre, [], by decide⟩, by decide, by decide, by decide, by decide, by decide⟩

/-- C2 counterexample: for the partition of the single complete sequence
`ESC ]7770;preexec BEL` into chunks `ESC ]77` and `70;preexec BEL`, the
processor's concatenated cleaned output is the raw input — the complete
sequence is **not** removed (the reassembly only stashes when the whole
7-byte opener is inside the buffer) — and the session status stays `done`
instead of the `running` dictated by the last OSC. -/
theorem osc_roundtrip_counterexample :
    (processChunks "t" egOscStore cexChunks).out = cexChunks.flatten ∧
    (stripOsc cexChunks.flatten).1 = [] ∧
    (processChunks "t" egOscStore cexChunks).out ≠ (stripOsc cexChunks.flatten).1 ∧
    ((processChunks "t" egOscStore cexChunks).store.sessions.lookup "t").map
        TerminalSession.status = some .done ∧
    TStatus.done ≠ TStatus.running := by
  refine ⟨by decide, by decide, by decide, by decide, by decide⟩

/-! ## Project store (`src/stores/useProjectStore.ts`) and App-level
composite handlers (`App.tsx`).

`TreeNode.terminalId = ""` models the absent (falsy) property of group
nodes; `children` models `children ?? []` (an empty JS array is truthy, so
every code path below treats a missing list and an empty list alike). -/

inductive NodeType
  | group
  | terminal
deriving DecidableEq, Repr

structure TreeNode where
  id : String
  name : String
  type : NodeType
  terminalId : String
  parentId : Option String
  children : List String
deriving DecidableEq, Repr

structure Project where
  id : String
  name : String
  cwd : String
  rootGroupId : String
  expanded : Bool
deriving DecidableEq, Repr

structure ProjectStore where
  projects : ORec Project
  nodes : ORec TreeNode
  activeProjectId : Option String
  projectOrder : List String
deriving DecidableEq, Repr

namespace ProjectStore

/-- `removeProject(id)`: drop the project and its order entry; if it was
active, fall back to the first remaining ordered project, else `null`. -/
def removeProject (st : ProjectStore) (id : String) : ProjectStore :=
  let newOrder := st.projectOrder.filter (fun pid => ¬ pid = id)
  { st with
    projects := st.projects.erase id
    projectOrder := newOrder
    activeProjectId :=
      if st.activeProjectId = some id then newOrder.head? else st.activeProjectId }

/-- `setActiveProject(id)`. -/
def setActiveProject (st : ProjectStore) (id : String) : ProjectStore :=
  { st with activeProjectId := some id }

/-- `removeNode(id)`. -/
def removeNode (st : ProjectStore) (id : String) : ProjectStore :=
  { st with nodes := st.nodes.erase id }

/-- `removeChildFromNode(parentId, childId)`: no-op when the parent is
missing. -/
def removeChildFromNode (st : ProjectStore) (parentId childId : String) : ProjectStore :=
  match st.nodes.lookup parentId with
  | none => st
  | some parent =>
    { st with
      nodes := st.nodes.insert parentId
          ({ parent with children := parent.children.filter (fun c => ¬ c = childId) }) }

end ProjectStore

/-- The three coupled stores of the workspace. -/
structure Workspace where
  proj : ProjectStore
  term : TerminalStore
  layo : LayoutStore
deriving DecidableEq, Repr

/-- `handleClosePane(terminalId)` from `App.tsx`.  The PTY-side calls
(`closeTerminal`, `disposeTerminalInstance`) act outside the three stores
and are omitted; everything else is translated statement by statement.
When the closing terminal is the layout key (tab root), the handler closes
the **whole tab**: every split pane's session, the root's session, the
layout entry and the tab's tree node; afterwards, if the project's root
group has no children left, the project itself is deleted. -/
def handleClosePane (ws : Workspace) (terminalId : String) : Workspace :=
  match ws.proj.activeProjectId.bind (fun pid => ws.proj.projects.lookup pid) with
  | none => ws
  | some activeProject =>
    let allLayouts := ws.layo.layouts
    match findLayoutKeyForTerminal allLayouts terminalId with
    | none => ws
    | some layoutKey =>
      let ws1 :=
        if layoutKey = terminalId then
          -- tab root: close split panes first, then the root, then the node
          let splitPanes :=
            match allLayouts.lookup layoutKey with
            | some layout => (findTerminalIds layout).filter (fun id => ¬ id = terminalId)
            | none => []
          let wsA := { ws with
            term := splitPanes.foldl (fun t id => t.removeSession id) ws.term }
          let wsB := { wsA with
            term := wsA.term.removeSession terminalId,
            layo := wsA.layo.removeLayout layoutKey }
          match wsB.proj.nodes.lookup activeProject.rootGroupId with
          | none => wsB
          | some rootNode =>
            match rootNode.children.find? (fun childId =>
                match wsB.proj.nodes.lookup childId with
                | some child =>
                  decide (child.type = NodeType.terminal ∧ child.terminalId = terminalId)
                | none => false) with
            | none => wsB
            | some childId =>
              { wsB with
                proj := (wsB.proj.removeChildFromNode activeProject.rootGroupId
                    childId).removeNode childId }
        else
          -- split pane: find the sibling before mutating the layout
          let sibling :=
            match allLayouts.lookup layoutKey with
            | some layout => findSiblingTerminalId layout terminalId
            | none => none
          let wsA := { ws with layo := ws.layo.removeTerminal layoutKey terminalId }
          let wsB :=
            match sibling with
            | some sib =>
              if wsA.term.activeTerminalId = some terminalId then
                { wsA with term := wsA.term.setActiveTerminal (some sib) }
              else wsA
            | none => wsA
          { wsB with term := wsB.term.removeSession terminalId }
      -- if no more tabs remain, clean up the project
      match ws1.proj.nodes.lookup activeProject.rootGroupId with
      | none =>
        { ws1 with
          proj := (ws1.proj.removeNode
              activeProject.rootGroupId).removeProject activeProject.id }
      | some updatedRoot =>
        if updatedRoot.children.isEmpty then
          { ws1 with
            proj := (ws1.proj.removeNode
                activeProject.rootGroupId).removeProject activeProject.id }
        else ws1

/-- The tab-cycling keydown handler from `App.tsx` (Cmd+Shift+[ / ]).  The
flat candidate list is built from **every** project in `projectOrder`
(whether expanded or not), taking every tree-terminal child of the root
group whose `terminalId` is truthy — with no check against the sessions
map; there is no last-focused-pane map, so the destination tab root itself
becomes the active terminal. -/
def cycleTerminal (ws : Workspace) (forward : Bool) : Workspace :=
  let allTerminals := ws.proj.projectOrder.foldl (fun acc projId =>
    match ws.proj.projects.lookup projId with
    | none => acc
    | some proj =>
      match ws.proj.nodes.lookup proj.rootGroupId with
      | none => acc
      | some rootNode =>
        rootNode.children.foldl (fun acc2 childId =>
          match ws.proj.nodes.lookup childId with
          | some child =>
            if child.type = NodeType.terminal ∧ ¬ child.terminalId = "" then
              acc2 ++ [(child.terminalId, projId)]
            else acc2
          | none => acc2) acc) []
  if allTerminals.length < 2 then ws
  else
    let currentIdx : Int :=
      match ws.term.activeTerminalId with
      | some tid =>
        match allTerminals.findIdx? (fun t => decide (t.1 = tid)) with
        | some i => (i : Int)
        | none =>
          match findLayoutKeyForTerminal ws.layo.layouts tid with
          | some parentKey =>
            match allTerminals.findIdx? (fun t => decide (t.1 = parentKey)) with
            | some i => (i : Int)
            | none => -1
          | none => -1
      | none => -1
    let n := allTerminals.length
    let nextIdx : Nat :=
      if currentIdx = -1 then (if forward then 0 else n - 1)
      else if forward then
        (if (n : Int) - 1 ≤ currentIdx then 0 else (currentIdx + 1).toNat)
      else
        (if currentIdx ≤ 0 then n - 1 else (currentIdx - 1).toNat)
    match allTerminals.get? nextIdx with
    | some next =>
      { ws with
        proj := ws.proj.setActiveProject next.2,
        term := ws.term.setActiveTerminal (some next.1) }
    | none => ws

/-- A node for a plain tab terminal. -/
def egTabNode (nid tid parent : String) : TreeNode :=
  { id := nid, name := tid, type := .terminal, terminalId := tid
    parentId := some parent, children := [] }

/-- A root group node. -/
def egGroupNode (gid : String) (childIds : List String) : TreeNode :=
  { id := gid, name := "root", type := .group, terminalId := ""
    parentId := none, children := childIds }

/-- A project record. -/
def egProject (pid gid : String) (expanded : Bool) : Project :=
  { id := pid, name := pid, cwd := "/", rootGroupId := gid, expanded := expanded }

/-- C1 failing input: one project `p1` with a single tab whose root `t1` was
split with pane `s`; `t1` (the layout key) is closed. -/
def wsC1 : Workspace :=
  { proj :=
      { projects := [("p1", egProject "p1" "g1" true)]
        nodes := [("g1", egGroupNode "g1" ["n1"]), ("n1", egTabNode "n1" "t1" "g1")]
        activeProjectId := some "p1"
        projectOrder := ["p1"] }
    term :=
      { sessions := [("t1", egSession "t1"), ("s", egSession "s")]
        activeTerminalId := some "t1"
        terminalCounter := 2 }
    layo :=
      { layouts := [("t1", .split 2 .horizontal (1/2 : ℚ) (.leaf 0 "t1") (.leaf 1 "s"))]
        nodeCounter := 2 } }

/-- C1: evaluating `handleClosePane` at the failing input.  Closing the tab
root `t1` while sibling pane `s` survives in the layout destroys the whole
tab: pane `s`'s session is deleted, no layout is re-keyed under `s`, the
tree node is removed and the project is garbage-collected — contradicting
the claimed re-keying behaviour (layout at key `s` with leaf `s`, session
`s` kept, tree node's terminalId updated to `s`). -/
theorem closePane_tab_root_destroys_tab :
    ((handleClosePane wsC1 "t1").term.sessions.lookup "s" = none) ∧
    ((handleClosePane wsC1 "t1").layo.layouts.lookup "s" = none) ∧
    ((handleClosePane wsC1 "t1").layo.layouts.lookup "t1" = none) ∧
    ((handleClosePane wsC1 "t1").proj.nodes.lookup "n1" = none) ∧
    ((handleClosePane wsC1 "t1").proj.projects.lookup "p1" = none) := by
  refine ⟨by decide, by decide, by decide, by decide, by decide⟩

/-- C3 failing input: projects `[p1, p2 (collapsed), p3]` with tabs
`t1, t2, t3`, all sessions present, active `(p1, t1)`. -/
def wsC3 : Workspace :=
  { proj :=
      { projects := [("p1", egProject "p1" "g1" true), ("p2", egProject "p2" "g2" false),
                     ("p3", egProject "p3" "g3" true)]
        nodes := [("g1", egGroupNode "g1" ["n1"]), ("n1", egTabNode "n1" "t1" "g1"),
                  ("g2", egGroupNode "g2" ["n2"]), ("n2", egTabNode "n2" "t2" "g2"),
                  ("g3", egGroupNode "g3" ["n3"]), ("n3", egTabNode "n3" "t3" "g3")]
        activeProjectId := some "p1"
        projectOrder := ["p1", "p2", "p3"] }
    term :=
      { sessions := [("t1", egSession "t1"), ("t2", egSession "t2"), ("t3", egSession "t3")]
        activeTerminalId := some "t1"
        terminalCounter := 3 }
    layo :=
      { layouts := [("t1", .leaf 0 "t1"), ("t2", .leaf 1 "t2"), ("t3", .leaf 2 "t3")]
        nodeCounter := 3 } }

/-- C3: evaluating the cycling handler at the failing input.  The candidate
list is built from every project regardless of `expanded` (and without
checking the sessions map), so one forward cycle from `(p1, t1)` lands on
the collapsed project's tab `(p2, t2)` — not `(p3, t3)` as claimed. -/
theorem cycleTerminal_collapsed_not_skipped :
    ((cycleTerminal wsC3 true).term.activeTerminalId = some "t2") ∧
    ((cycleTerminal wsC3 true).proj.activeProjectId = some "p2") ∧
    ¬ ((some "t2" : Option String) = some "t3") := by
  refine ⟨by decide, by decide, by decide⟩

/-- C4 failing input: project `p1` with tabs `t1` (split with pane `s`) and
`t2`; the user focused `s` and cycled forward, so the active terminal is now
`t2`; the claim says cycling backward restores `s`. -/
def wsC4 : Workspace :=
  { proj :=
      { projects := [("p1", egProject "p1" "g1" true)]
        nodes := [("g1", egGroupNode "g1" ["n1", "n2"]), ("n1", egTabNode "n1" "t1" "g1"),
                  ("n2", egTabNode "n2" "t2" "g1")]
        activeProjectId := some "p1"
        projectOrder := ["p1"] }
    term :=
      { sessions := [("t1", egSession "t1"), ("s", egSession "s"), ("t2", egSession "t2")]
        activeTerminalId := some "t2"
        terminalCounter := 3 }
    layo :=
      { layouts := [("t1", .split 2 .horizontal (1/2 : ℚ) (.leaf 0 "t1") (.leaf 1 "s")),
                    ("t2", .leaf 3 "t2")]
        nodeCounter := 3 } }

/-- C4: evaluating the cycling handler at the failing input.  The handler
keeps no last-focused-pane map: cycling backward from `t2` activates the
destination tab root `t1` itself, not the previously focused split pane
`s`. -/
theorem cycleTerminal_no_last_focused_restore :
    ((cycleTerminal wsC4 false).term.activeTerminalId = some "t1") ∧
    ¬ ((some "t1" : Option String) = some "s") := by
  refine ⟨by decide, by decide⟩

end Dispatcher
